import Mathlib

/-!
Verification of the sparse Cholesky (LDLT) symbolic and numeric engine of the
faer sparse-experimental crate (src/faer-sparse-experimental/src/cholesky.rs),
as a shallow embedding in Lean.

Conventions of the embedding:
* machine indices are modelled as Nat; the sentinel NONE of the source is
  modelled as Option.none where the source uses MaybeIdx, and the comparison
  sentinel of visited arrays (uninitialised or fill_none memory, which is never
  equal to any column index) is modelled as the dimension n;
* mutable integer buffers are Lists with List.set (writes out of range are
  no-ops; in the source all writes on the verified paths are in range);
* the loops that climb the elimination tree are written with explicit fuel n.
  Each executed loop body stamps a previously unstamped node with the current
  column, and the current column itself is stamped before the loop, so a walk
  executes at most n - 1 bodies and fuel n always suffices: running out of
  fuel returns the state unchanged, exactly as the break on the stamp test.
-/

/-- Symbolic CSC (compressed sparse column) matrix: dimension, column pointers
and row indices, as in SymbolicSparseColMatRef restricted to square inputs. -/
structure Csc where
  n : Nat
  colPtr : List Nat
  rowInd : List Nat

/-- The row indices of column j, i.e. row_ind[col_ptr[j] .. col_ptr[j+1]]. -/
def Csc.col (A : Csc) (j : Nat) : List Nat :=
  (A.rowInd.drop (A.colPtr.getD j 0)).take (A.colPtr.getD (j+1) 0 - A.colPtr.getD j 0)

/-- State threaded by ghost_prefactorize_symbolic: the elimination tree being
built, the column counts, and the visited stamps. -/
structure PreState where
  etree : List (Option Nat)
  cc : List Nat
  vis : List Nat

/-- The inner loop of ghost_prefactorize_symbolic: climb the (partial)
elimination tree from node i at column j, stamping nodes, bumping their
column counts, and assigning parent j to the first parentless node. -/
def walkP (j : Nat) : Nat → Nat → PreState → PreState
  | 0, _, st => st
  | fuel+1, i, st =>
    if st.vis.getD i 0 = j then st
    else
      let en := st.etree.getD i none
      let etree := match en with
        | some _ => st.etree
        | none => st.etree.set i (some j)
      let nexti := match en with
        | some p => p
        | none => j
      walkP j fuel nexti
        ⟨etree, st.cc.set i (st.cc.getD i 0 + 1), st.vis.set i j⟩

/-- One column of ghost_prefactorize_symbolic: stamp j, set its count to 1,
then walk from every row index i < j of column j of A. -/
def colP (A : Csc) (st : PreState) (j : Nat) : PreState :=
  let st : PreState := ⟨st.etree, st.cc.set j 1, st.vis.set j j⟩
  (A.col j).foldl (fun st i => if i < j then walkP j A.n i st else st) st

/-- ghost_prefactorize_symbolic: elimination tree and column counts of the
Cholesky factor of a symmetric matrix given by its upper triangle. -/
def ghost_prefactorize_symbolic (A : Csc) : PreState :=
  (List.range A.n).foldl (colP A)
    ⟨List.replicate A.n none, List.replicate A.n 0, List.replicate A.n A.n⟩

/-- The elimination tree computed for A. -/
def etreeOf (A : Csc) : List (Option Nat) := (ghost_prefactorize_symbolic A).etree

/-- The column counts computed for A. -/
def colCountsOf (A : Csc) : List Nat := (ghost_prefactorize_symbolic A).cc

/-- The 11x11 fixture of the test test_counts (Scenario A of the spec). -/
def fixtureA : Csc :=
  ⟨11,
   [0, 3, 6, 10, 13, 16, 21, 24, 29, 31, 37, 43],
   [0, 5, 6,
    1, 2, 7,
    1, 2, 9, 10,
    3, 5, 9,
    4, 7, 10,
    0, 3, 5, 8, 9,
    0, 6, 10,
    1, 4, 7, 9, 10,
    5, 8,
    2, 3, 5, 7, 9, 10,
    2, 4, 6, 7, 9, 10]⟩

/-- Iterated parent map of an elimination tree: follow the parent pointer k
times from node i (none when a root is passed). -/
def parentIter (et : List (Option Nat)) : Nat → Nat → Option Nat
  | 0, i => some i
  | k+1, i =>
    match et.getD i none with
    | none => none
    | some p => parentIter et k p

/-- Every assigned parent is strictly above its child and below the bound b
(the number of columns processed so far). -/
def EtreeBnd (et : List (Option Nat)) (b : Nat) : Prop :=
  ∀ m p, et.getD m none = some p → m < p ∧ p < b

/-- The three state buffers of the prefactorization all have length n. -/
def PreWF (n : Nat) (st : PreState) : Prop :=
  st.etree.length = n ∧ st.cc.length = n ∧ st.vis.length = n

/-! ### Supernode discovery, relaxation test and algorithm selection -/

/-- child_count: the number of children of each node in the elimination tree. -/
def childCount (et : List (Option Nat)) (n : Nat) : List Nat :=
  (List.range n).foldl
    (fun cnt j =>
      match et.getD j none with
      | some p => cnt.set p (cnt.getD p 0 + 1)
      | none => cnt)
    (List.replicate n 0)

/-- The merge test between consecutive columns j-1 and j of the fundamental
supernode scan: j is the etree parent of j-1, j has exactly one child, and
the column counts progress compatibly. -/
def sameSupernodeB (et : List (Option Nat)) (cc chCnt : List Nat) (j : Nat) : Bool :=
  (et.getD (j-1) none == some j) && (chCnt.getD j 0 == 1) &&
    (cc.getD (j-1) 0 == cc.getD j 0 + 1)

/-- One step of the fundamental supernode scan at column j (j from 1): a new
supernode starts unless the merge test holds, and the size of the current
supernode is bumped. -/
def superScanStep (et : List (Option Nat)) (cc chCnt : List Nat)
    (st : Nat × List Nat) (j : Nat) : Nat × List Nat :=
  let cur := if sameSupernodeB et cc chCnt j then st.1 else st.1 + 1
  (cur, st.2.set cur (st.2.getD cur 0 + 1))

/-- The fundamental supernode scan after the first j columns (j up to n-1):
current supernode index and sizes so far, starting from sizes[0] = 1. -/
def superScanUpTo (et : List (Option Nat)) (cc chCnt : List Nat) (n j : Nat) :
    Nat × List Nat :=
  (List.range' 1 j).foldl (superScanStep et cc chCnt)
    (0, (List.replicate n 0).set 0 1)

/-- The supernode index assigned to column j by the fundamental scan. -/
def superOf (et : List (Option Nat)) (cc chCnt : List Nat) (n j : Nat) : Nat :=
  (superScanUpTo et cc chCnt n j).1

/-- The full fundamental supernode scan (columns 1 .. n-1). -/
def superScan (et : List (Option Nat)) (cc chCnt : List Nat) (n : Nat) :
    Nat × List Nat :=
  superScanUpTo et cc chCnt n (n - 1)

/-- The cutoff scan of the relaxed-supernode merge test: return the merged
zero count at the first cutoff (n_cut, z_cut) of the relaxation list with
n_cut >= combined_size and num_expanded_entries * z_cut >= num_zeros. -/
def findCutoff (combined_size num_expanded_entries num_zeros : Nat) :
    List (Nat × ℚ) → Option Nat
  | [] => none
  | c :: rest =>
    if combined_size ≤ c.1 ∧ (num_zeros : ℚ) ≤ (num_expanded_entries : ℚ) * c.2
    then some num_zeros
    else findCutoff combined_size num_expanded_entries num_zeros rest

/-- status_num_merged_zeros of the relaxation pass: the accumulated explicit
zero count after merging child into parent when the merge is accepted, and
none when it is rejected. Rational arithmetic stands in for the f64
arithmetic of the source. -/
def mergeStatus (relax : List (Nat × ℚ))
    (parent_size child_size parent_degree child_degree
      num_parent_zeros num_child_zeros : Nat) : Option Nat :=
  let num_new_zeros := (parent_size + parent_degree - child_degree) * child_size
  if num_new_zeros = 0 then some (num_parent_zeros + num_child_zeros)
  else
    let num_old_zeros := num_child_zeros + num_parent_zeros
    let num_zeros := num_new_zeros + num_old_zeros
    let combined_size := child_size + parent_size
    let num_expanded_entries :=
      combined_size * (combined_size + 1) / 2 + parent_degree * combined_size
    findCutoff combined_size num_expanded_entries num_zeros relax

/-- The two symbolic factorization algorithms. -/
inductive SymbolicRawKind
  | simplicial
  | supernodal
deriving DecidableEq

/-- CholeskySymbolicParams, without the amd_params field whose type lives in
the amd module outside the embedded core: the flop ratio threshold and the
supernodal relaxation list. -/
structure CholeskyParams where
  supernodal_flop_ratio_threshold : ℚ
  relax : Option (List (Nat × ℚ))

/-- The Default impl: threshold 40.0 and relaxation list
[(4, 1.0), (16, 0.8), (48, 0.1), (usize::MAX, 0.05)], with usize::MAX
modelled as 2^64 - 1. -/
def CholeskyParams.default : CholeskyParams :=
  ⟨40, some [(4, 1), (16, (4 : ℚ)/5), (48, (1 : ℚ)/10),
    (18446744073709551615, (1 : ℚ)/20)]⟩

/-- L_nnz = I::sum_nonnegative(col_counts). -/
def LnnzOf (cc : List Nat) : Nat := cc.sum

/-- The algorithm selection of factorize_symbolic: supernodal exactly when
flops / L_nnz exceeds the threshold (rational arithmetic stands in for f64). -/
def chooseCholeskyKind (flops : ℚ) (L_nnz : Nat) (threshold : ℚ) :
    SymbolicRawKind :=
  if flops / (L_nnz : ℚ) > threshold then .supernodal else .simplicial

/-! ### The supernodal symbolic factorization -/

/-- Error type of the sparse module (only the variant produced by
ghost_factorize_supernodal_symbolic itself is modelled; allocation failures
are outside the embedding). -/
inductive FaerSparseError
  | indexOverflow
deriving DecidableEq

/-- SymbolicSupernodalCholesky. -/
structure SupSym where
  dimension : Nat
  supernode_postorder : List Nat
  supernode_postorder_inv : List Nat
  descendent_count : List Nat
  supernode_begin : List Nat
  col_ptrs_for_row_indices : List Nat
  col_ptrs_for_values : List Nat
  row_indices : List Nat
deriving DecidableEq

/-- n_supernodes() = supernode_postorder.len(). -/
def SupSym.n_supernodes (s : SupSym) : Nat := s.supernode_postorder.length

/-- len_values() = col_ptrs_for_values()[n_supernodes()]. -/
def SupSym.len_values (s : SupSym) : Nat :=
  s.col_ptrs_for_values.getD s.n_supernodes 0

/-- index_to_super: fill each supernode's column range with its index. -/
def fillIndexToSuper (sizes : List Nat) (S n : Nat) : List Nat :=
  ((List.range S).foldl
    (fun (st : List Nat × Nat) s =>
      let size := sizes.getD s 0
      ((List.range size).foldl (fun l t => l.set (st.2 + t) s) st.1, st.2 + size))
    (List.replicate n 0, 0)).1

/-- The supernodal elimination tree: the parent supernode of s is the
supernode of the etree parent of the last column of s (absent for roots). -/
def computeSuperEtree (et : List (Option Nat)) (sizes i2s : List Nat) (S : Nat) :
    List (Option Nat) :=
  ((List.range S).foldl
    (fun (st : List (Option Nat) × Nat) s =>
      let size := sizes.getD s 0
      let v : Option Nat :=
        match et.getD (st.2 + size - 1) none with
        | some parent => some (i2s.getD parent 0)
        | none => none
      (st.1.set s v, st.2 + size))
    (List.replicate S none, 0)).1

/-- Off-diagonal count of each fundamental supernode:
col_counts[last column] - 1. -/
def fundamentalDegrees (cc sizes : List Nat) (S : Nat) : List Nat :=
  ((List.range S).foldl
    (fun (st : List Nat × Nat) s =>
      let size := sizes.getD s 0
      (st.1.set s (cc.getD (st.2 + size - 1) 0 - 1), st.2 + size))
    (List.replicate S 0, 0)).1

/-- The child lists of the supernodal etree: (child_lists, child_list_heads),
built by pushing each supernode onto its parent's list in ascending order. -/
def buildChildLists (superEtree : List (Option Nat)) (S : Nat) :
    List (Option Nat) × List (Option Nat) :=
  (List.range S).foldl
    (fun (st : List (Option Nat) × List (Option Nat)) s =>
      match superEtree.getD s none with
      | some parent => (st.1.set s (st.2.getD parent none), st.2.set parent (some s))
      | none => st)
    (List.replicate S none, List.replicate S none)

/-- Mutable state of the relaxation pass. -/
structure MergeState where
  mergeParents : List (Option Nat)
  lastMerged : List (Option Nat)
  sizes : List Nat
  numZeros : List Nat

/-- The child scan of the relaxation pass: walk the child list of parent and
keep the best merge candidate (largest mergeable child, ties broken towards
fewer freshly introduced zeros). The accumulator is (merging_child,
num_new_zeros, num_merged_zeros, largest_mergable_size). The child list is
strictly decreasing, so fuel S + 1 covers the walk. -/
def childScan (childLists mergeParents : List (Option Nat))
    (sizes degrees numZeros : List Nat) (relax : List (Nat × ℚ)) (parent : Nat) :
    Nat → Option Nat → (Option Nat × Nat × Nat × Nat) →
      Option Nat × Nat × Nat × Nat
  | 0, _, acc => acc
  | _+1, none, acc => acc
  | fuel+1, some child, acc =>
    let next := childLists.getD child none
    if child + 1 ≠ parent then
      childScan childLists mergeParents sizes degrees numZeros relax parent fuel next acc
    else if (mergeParents.getD child none).isSome then
      childScan childLists mergeParents sizes degrees numZeros relax parent fuel next acc
    else
      let parent_size := sizes.getD parent 0
      let child_size := sizes.getD child 0
      if child_size < acc.2.2.2 then
        childScan childLists mergeParents sizes degrees numZeros relax parent fuel next acc
      else
        let parent_degree := degrees.getD parent 0
        let child_degree := degrees.getD child 0
        let num_parent_zeros := numZeros.getD parent 0
        let num_child_zeros := numZeros.getD child 0
        match mergeStatus relax parent_size child_size parent_degree child_degree
          num_parent_zeros num_child_zeros with
        | none =>
          childScan childLists mergeParents sizes degrees numZeros relax parent fuel next acc
        | some status =>
          let proposed := status - (num_child_zeros + num_parent_zeros)
          if child_size > acc.2.2.2 ∨ proposed < acc.2.1 then
            childScan childLists mergeParents sizes degrees numZeros relax parent fuel next
              (some child, proposed, status, child_size)
          else
            childScan childLists mergeParents sizes degrees numZeros relax parent fuel next acc

/-- The merge loop for one parent: repeatedly select and apply the best
merge until no child qualifies. Each round retires one child, so fuel S + 1
covers the loop. -/
def mergeLoop (childLists childListHeads : List (Option Nat)) (degrees : List Nat)
    (relax : List (Nat × ℚ)) (parent S : Nat) :
    Nat → MergeState → MergeState
  | 0, st => st
  | fuel+1, st =>
    let acc := childScan childLists st.mergeParents st.sizes degrees st.numZeros
      relax parent (S+1) (childListHeads.getD parent none) (none, 0, 0, 0)
    match acc.1 with
    | none => st
    | some mc =>
      let sizes := (st.sizes.set parent
        (st.sizes.getD parent 0 + st.sizes.getD mc 0)).set mc 0
      let numZeros := st.numZeros.set parent acc.2.2.1
      let mergeParents := st.mergeParents.set mc
        (match st.lastMerged.getD parent none with
         | some c => some c
         | none => some parent)
      let lastMerged := st.lastMerged.set parent
        (match st.lastMerged.getD mc none with
         | some c => some c
         | none => some mc)
      mergeLoop childLists childListHeads degrees relax parent S fuel
        ⟨mergeParents, lastMerged, sizes, numZeros⟩

/-- The relaxation pass over all parents in ascending order; returns the
final merge state together with the fundamental supernode degrees. -/
def relaxPass (superEtree : List (Option Nat)) (cc sizes0 : List Nat)
    (relax : List (Nat × ℚ)) (S : Nat) : MergeState × List Nat :=
  let links := buildChildLists superEtree S
  let degrees := fundamentalDegrees cc sizes0 S
  (((List.range S).foldl
    (fun st parent => mergeLoop links.1 links.2 degrees relax parent S (S+1) st)
    ⟨List.replicate S none, List.replicate S none, sizes0, List.replicate S 0⟩),
   degrees)

/-- Compact out the merged (size 0) supernodes, keeping sizes and degrees of
the survivors in order: returns (n_relaxed_supernodes, sizes, degrees).
(The original_to_relaxed table of the source is written into a scratch
buffer and never used afterwards, so it is not modelled.) -/
def compactStep (st : Nat × List Nat × List Nat) (s : Nat) :
    Nat × List Nat × List Nat :=
  let size := st.2.1.getD s 0
  let degree := st.2.2.getD s 0
  if 0 < size then
    (st.1 + 1, st.2.1.set st.1 size, st.2.2.set st.1 degree)
  else st

def compactSupernodes (sizes degrees : List Nat) (S : Nat) :
    Nat × List Nat × List Nat :=
  (List.range S).foldl compactStep (0, sizes, degrees)

/-- State of the frontal-size assembly loop: supernode_begin being turned
into prefix sums, the sizes buffer being reused for row starts, the two
column-pointer arrays, and the running row / value / wide counters. In the
source val_ptr is accumulated through a truncating cast from u128; values of
val_ptr are only exposed when the subsequent check wide <= I::MAX passes,
in which case no truncation occurred, so the cast is modelled as identity. -/
structure AsmState where
  sb : List Nat
  sizes : List Nat
  cpr : List Nat
  cpv : List Nat
  rowPtr : Nat
  valPtr : Nat
  wide : Nat

/-- One step of the assembly loop for supernode s. -/
def assembleStep (st : AsmState) (s : Nat) : AsmState :=
  let degree := st.sb.getD (s+1) 0
  let ncols := st.sizes.getD s 0
  let nrows := degree + ncols
  ⟨st.sb.set (s+1) (st.sb.getD s 0 + ncols),
   st.sizes.set s st.rowPtr,
   st.cpr.set s st.rowPtr,
   st.cpv.set s st.valPtr,
   st.rowPtr + degree,
   st.valPtr + nrows * ncols,
   st.wide + nrows * ncols⟩

/-- The assembly loop over all supernodes, starting from the
degrees-carrying supernode_begin array. -/
def assemble (sbDeg sizes : List Nat) (S : Nat) : AsmState :=
  (List.range S).foldl assembleStep
    ⟨sbDeg, sizes, List.replicate (S+1) 0, List.replicate (S+1) 0, 0, 0, 0⟩

/-- The inner climb of ereach_super: walk up the supernodal etree from
supernode si at column k, appending k to the pattern of every unstamped
supernode passed. State: (row_indices, current_row_positions, visited).
In the source a root with an unstamped flag is impossible on the inputs the
pipeline produces (the climb always reaches the supernode of k first), and
the embedding stops there where the source would panic on unwrap. -/
def walkSuper (superEtree : List (Option Nat)) (k : Nat) :
    Nat → Nat → (List Nat × List Nat × List Nat) →
      List Nat × List Nat × List Nat
  | 0, _, st => st
  | fuel+1, si, st =>
    if st.2.2.getD si 0 = k then st
    else
      let p := st.2.1.getD si 0
      let ri := st.1.set p k
      let cp := st.2.1.set si (p + 1)
      let vis := st.2.2.set si k
      match superEtree.getD si none with
      | some nextSi => walkSuper superEtree k fuel nextSi (ri, cp, vis)
      | none => (ri, cp, vis)

/-- ereach_super for one column k: stamp the supernode of k, then climb from
the supernode of every row index i < k of column k of A. -/
def ereachSuperCol (A : Csc) (superEtree : List (Option Nat)) (i2s : List Nat)
    (S k : Nat) (st : List Nat × List Nat × List Nat) :
    List Nat × List Nat × List Nat :=
  let st : List Nat × List Nat × List Nat :=
    (st.1, st.2.1, st.2.2.set (i2s.getD k 0) k)
  (A.col k).foldl
    (fun st i => if i < k then walkSuper superEtree k S (i2s.getD i 0) st else st) st

/-- Fill the row_indices buffer of every supernode by running ereach_super
over every column of every supernode; returns (row_indices,
current_row_positions). The visited buffer (of length S, stamped with
column indices) starts at the sentinel n. -/
def fillRowIndices (A : Csc) (superEtree : List (Option Nat)) (i2s sb : List Nat)
    (curPos0 rowInd0 : List Nat) (S n : Nat) : List Nat × List Nat :=
  let final := (List.range S).foldl
    (fun st s =>
      (List.range' (sb.getD s 0) (sb.getD (s+1) 0 - sb.getD s 0)).foldl
        (fun st k => ereachSuperCol A superEtree i2s S k st) st)
    (rowInd0, curPos0, List.replicate S n)
  (final.1, final.2.1)

/-- Build (first_child, next_child) lists of the supernodal etree, scanning
nodes in descending order (next_child of a root is never read and stays at
its initial value). -/
def buildChildLinks (et : List (Option Nat)) (S : Nat) :
    List (Option Nat) × List (Option Nat) :=
  (List.range S).reverse.foldl
    (fun (st : List (Option Nat) × List (Option Nat)) j =>
      match et.getD j none with
      | some parent =>
        (st.1.set parent (some j), st.2.set j (st.1.getD parent none))
      | none => st)
    (List.replicate S none, List.replicate S none)

/-- The iterative depth-first search of postorder_depth_first_search. State:
(post, start_index, stack, top, first_child). Every iteration either pushes
a child (consuming one tree edge) or pops, so fuel 2S + 1 covers the loop. -/
def postorderDFSLoop (nextChild : List (Option Nat)) :
    Nat → (List Nat × Nat × List Nat × Nat × List (Option Nat)) →
      List Nat × Nat × List Nat × Nat × List (Option Nat)
  | 0, st => st
  | fuel+1, st =>
    if st.2.2.2.1 = 0 then st
    else
      let post := st.1
      let si := st.2.1
      let stack := st.2.2.1
      let top := st.2.2.2.1
      let fc := st.2.2.2.2
      let current := stack.getD (top - 1) 0
      match fc.getD current none with
      | some child =>
        postorderDFSLoop nextChild fuel
          (post, si, stack.set top child, top + 1,
            fc.set current (nextChild.getD child none))
      | none =>
        postorderDFSLoop nextChild fuel
          (post.set si current, si + 1, stack, top - 1, fc)

/-- ghost_postorder of the supernodal etree: run the DFS from every root in
ascending order. -/
def ghost_postorder (et : List (Option Nat)) (S : Nat) : List Nat :=
  let links := buildChildLinks et S
  ((List.range S).foldl
    (fun (st : List Nat × Nat × List (Option Nat)) root =>
      match et.getD root none with
      | some _ => st
      | none =>
        let r := postorderDFSLoop links.2 (2*S+1)
          (st.1, st.2.1, (List.replicate S 0).set 0 root, 1, st.2.2)
        (r.1, r.2.1, r.2.2.2.2))
    (List.replicate S 0, 0, links.1)).1

/-- descendent_count: children-first accumulation over the supernodal etree. -/
def descendentCount (et : List (Option Nat)) (S : Nat) : List Nat :=
  (List.range S).foldl
    (fun dc s =>
      match et.getD s none with
      | some parent => dc.set parent (dc.getD parent 0 + dc.getD s 0 + 1)
      | none => dc)
    (List.replicate S 0)

/-- The inverse of the postorder permutation. -/
def postorderInv (post : List Nat) (S : Nat) : List Nat :=
  (List.range S).foldl (fun pi i => pi.set (post.getD i 0) i) (List.replicate S 0)

/-- The final supernode partition handed to the assembly: the number of
supernodes, their sizes, and the degrees-carrying supernode_begin array
(0 followed by the off-diagonal degree of each supernode). -/
def supernodalPartition (A : Csc) (et : List (Option Nat)) (cc : List Nat)
    (relax : Option (List (Nat × ℚ))) : Nat × List Nat × List Nat :=
  let n := A.n
  let chCnt := childCount et n
  let scan := superScan et cc chCnt n
  let nF := scan.1 + 1
  let sizesF := scan.2.take nF
  match relax with
  | some relaxList =>
    let i2sF := fillIndexToSuper sizesF nF n
    let superEtreeF := computeSuperEtree et sizesF i2sF nF
    let ms := relaxPass superEtreeF cc sizesF relaxList nF
    let comp := compactSupernodes ms.1.sizes ms.2 nF
    (comp.1, comp.2.1.take comp.1, 0 :: comp.2.2.take comp.1)
  | none =>
    (nF, sizesF, 0 :: fundamentalDegrees cc sizesF nF)

/-- The total frontal-block value count checked against I::MAX: the sum over
the final supernodes of (degree_s + ncols_s) * ncols_s. -/
def supernodalWideOf (sbDeg sizes : List Nat) (S : Nat) : Nat :=
  ((List.range S).map
    (fun s => (sbDeg.getD (s+1) 0 + sizes.getD s 0) * sizes.getD s 0)).sum

/-- The total frontal-block value count of the factorization of A. -/
def supernodalWide (A : Csc) (et : List (Option Nat)) (cc : List Nat)
    (relax : Option (List (Nat × ℚ))) : Nat :=
  if A.n = 0 then 0
  else
    let part := supernodalPartition A et cc relax
    supernodalWideOf part.2.2 part.2.1 part.1

/-- The tail of ghost_factorize_supernodal_symbolic after the partition is
fixed: recompute index_to_super and the supernodal etree from the final
sizes (the source skips the recomputation when the supernode count did not
change, in which case it recomputes the same values), assemble the column
pointers with the overflow check, fill the row indices, and compute the
postorder data. -/
def finishSupernodal (A : Csc) (et : List (Option Nat)) (n nS : Nat)
    (sizes sbDeg : List Nat) (IMAX : Nat) : Except FaerSparseError SupSym :=
  let i2s := fillIndexToSuper sizes nS n
  let superEtree := computeSuperEtree et sizes i2s nS
  let asm := assemble sbDeg sizes nS
  let cpr := asm.cpr.set nS asm.rowPtr
  let cpv := asm.cpv.set nS asm.valPtr
  if asm.wide > IMAX then .error .indexOverflow
  else
    let fill := fillRowIndices A superEtree i2s asm.sb asm.sizes
      (List.replicate asm.rowPtr 0) nS n
    let descCount := descendentCount superEtree nS
    let post := ghost_postorder superEtree nS
    let postInv := postorderInv post nS
    .ok ⟨n, post, postInv, descCount, asm.sb, cpr, cpv, fill.1⟩

/-- ghost_factorize_supernodal_symbolic: fundamental supernode discovery,
optional relaxation, symbolic pattern computation and postorder, with the
frontal-size overflow check against the largest representable index IMAX. -/
def ghost_factorize_supernodal_symbolic (A : Csc) (et : List (Option Nat))
    (cc : List Nat) (relax : Option (List (Nat × ℚ))) (IMAX : Nat) :
    Except FaerSparseError SupSym :=
  if A.n = 0 then
    .ok ⟨0, [], [], [], [0], [0], [0], []⟩
  else
    let part := supernodalPartition A et cc relax
    finishSupernodal A et A.n part.1 part.2.1 part.2.2 IMAX

/-! ### The ereach sweep and the simplicial symbolic factorization -/

/-- The prefactorization state after the first K columns. -/
def prefactUpTo (A : Csc) (K : Nat) : PreState :=
  (List.range K).foldl (colP A)
    ⟨List.replicate A.n none, List.replicate A.n 0, List.replicate A.n A.n⟩

/-- Pointwise extension order on partial elimination trees: every assigned
parent of s is an assigned parent of t. -/
def EtreeLe (s t : List (Option Nat)) : Prop :=
  ∀ m p, s.getD m none = some p → t.getD m none = some p

/-- The climb of ereach from node i at column k over the finished elimination
tree: push every unstamped node in climb order, stamping it, until a stamped
node is reached. On the inputs produced by the pipeline every pushed node
has a parent (the climb meets the stamp of k first), so the parentless case
below is unreachable; the source reads the raw parent value there without a
check, and the embedding stops instead. -/
def walkE (et : List (Option Nat)) (k : Nat) :
    Nat → Nat → List Nat → List Nat × List Nat
  | 0, _, vis => (vis, [])
  | fuel+1, i, vis =>
    if vis.getD i 0 = k then (vis, [])
    else
      match et.getD i none with
      | none => (vis.set i k, [i])
      | some p =>
        let r := walkE et k fuel p (vis.set i k)
        (r.1, i :: r.2)

/-- ereach for column k: stamp k, then climb from every row index i < k of
column k of A. The source packs each fresh segment below the previous ones
at the top of its scratch stack, so the reach lists the segments in reverse
discovery order, each segment in climb order. -/
def ereachCol (A : Csc) (et : List (Option Nat)) (k : Nat) (vis : List Nat) :
    List Nat × List Nat :=
  (A.col k).foldl
    (fun (st : List Nat × List Nat) i =>
      if i < k then
        let r := walkE et k A.n i st.1
        (r.1, r.2 ++ st.2)
      else st)
    (vis.set k k, [])

/-- The stamp array of the ereach sweep after the first K columns (stamps
start at the sentinel n, the model of fill_none). -/
def simpVisUpTo (A : Csc) (et : List (Option Nat)) (K : Nat) : List Nat :=
  (List.range K).foldl (fun vis k => (ereachCol A et k vis).1)
    (List.replicate A.n A.n)

/-- The reach of column k in the ereach sweep. -/
def reachAt (A : Csc) (et : List (Option Nat)) (k : Nat) : List Nat :=
  (ereachCol A et k (simpVisUpTo A et k)).2

/-- The multiplicity of column m in the reaches of the first K columns: the
number of entries the simplicial symbolic factorization appends to column m
of L while processing columns below K. -/
def reachCountBelow (A : Csc) (et : List (Option Nat)) (K m : Nat) : Nat :=
  ((List.range K).map (fun k => (reachAt A et k).count m)).sum

/-- L_col_ptrs: the exclusive prefix sums of the column counts, built as in
the source by a sliding-window pass over a zeroed buffer of length n+1. -/
def prefixSums (cc : List Nat) (n : Nat) : List Nat :=
  (List.range n).foldl (fun l j => l.set (j+1) (l.getD j 0 + cc.getD j 0))
    (List.replicate (n+1) 0)

/-- SymbolicSimplicialCholesky. -/
structure SimpSym where
  col_ptrs : List Nat
  row_indices : List Nat
  etree : List (Option Nat)
deriving DecidableEq

/-- One column of the simplicial symbolic factorization: compute the reach,
append k to column j of L for every j in the reach (bumping that column's
fill pointer), then place the diagonal entry k at the start of column k.
State: (current_row_index, L_row_indices, visited). -/
def simpColStep (A : Csc) (et : List (Option Nat)) (Lp : List Nat)
    (st : List Nat × List Nat × List Nat) (k : Nat) :
    List Nat × List Nat × List Nat :=
  let r := ereachCol A et k st.2.2
  let cl := r.2.foldl
    (fun (cl : List Nat × List Nat) j =>
      let row_idx := cl.1.getD j 0 + 1
      (cl.1.set j row_idx, cl.2.set row_idx k))
    (st.1, st.2.1)
  (cl.1, cl.2.set (Lp.getD k 0) k, r.1)

/-- The simplicial fill state after the first K columns. -/
def simpFillUpTo (A : Csc) (et : List (Option Nat)) (Lp : List Nat) (K : Nat) :
    List Nat × List Nat × List Nat :=
  (List.range K).foldl (simpColStep A et Lp)
    (Lp.take A.n, List.replicate (Lp.getD A.n 0) 0, List.replicate A.n A.n)

/-- ghost_factorize_simplicial_symbolic: column pointers from the prefix sums
of the column counts, row indices from the ereach sweep, and a copy of the
elimination tree. -/
def ghost_factorize_simplicial_symbolic (A : Csc) (et : List (Option Nat))
    (cc : List Nat) : SimpSym :=
  let Lp := prefixSums cc A.n
  ⟨Lp, (simpFillUpTo A et Lp A.n).2.1, et⟩

/-! ### The simplicial numeric LDLT factorization -/

/-- Computable complex scalars over the rationals, modelling the
ComplexField operations used by the numeric kernel (rational arithmetic
stands in for f64). -/
structure CQ where
  re : ℚ
  im : ℚ
deriving DecidableEq

/-- E::zero(). -/
def CQ.zero : CQ := ⟨0, 0⟩

/-- Complex subtraction. -/
def CQ.sub (a b : CQ) : CQ := ⟨a.re - b.re, a.im - b.im⟩

/-- Complex multiplication. -/
def CQ.mul (a b : CQ) : CQ := ⟨a.re * b.re - a.im * b.im, a.re * b.im + a.im * b.re⟩

/-- Complex conjugation. -/
def CQ.conj (a : CQ) : CQ := ⟨a.re, -a.im⟩

/-- scale_real: multiply both parts by a real factor. -/
def CQ.scaleReal (a : CQ) (r : ℚ) : CQ := ⟨a.re * r, a.im * r⟩

/-- E::from_real: embed a real number with zero imaginary part. -/
def CQ.fromReal (r : ℚ) : CQ := ⟨r, 0⟩

/-- A numeric CSC matrix over CQ. -/
structure CscQ where
  n : Nat
  colPtr : List Nat
  rowInd : List Nat
  vals : List CQ

/-- The symbolic pattern of a numeric matrix. -/
def CscQ.pattern (A : CscQ) : Csc := ⟨A.n, A.colPtr, A.rowInd⟩

/-- The (row, value) pairs of column k. -/
def CscQ.colEntries (A : CscQ) (k : Nat) : List (Nat × CQ) :=
  ((A.rowInd.drop (A.colPtr.getD k 0)).take
      (A.colPtr.getD (k+1) 0 - A.colPtr.getD k 0)).zip
    ((A.vals.drop (A.colPtr.getD k 0)).take
      (A.colPtr.getD (k+1) 0 - A.colPtr.getD k 0))

/-- One column of factorize_simplicial_numeric_ldlt: compute the reach,
scatter the conjugated column of A into the dense workspace x, read the
diagonal accumulator d, then for each j in the reach divide by the stored
diagonal of column j, run the sparse AXPY update over the rows of column j
of L stored so far, update d and append l_kj to column j of L; finally
store d as the diagonal of column k. State: (x, current_row_index,
L_values, visited). -/
def numColStep (A : CscQ) (et : List (Option Nat)) (Lp Lr : List Nat)
    (st : List CQ × List Nat × List CQ × List Nat) (k : Nat) :
    List CQ × List Nat × List CQ × List Nat :=
  let r := ereachCol A.pattern et k st.2.2.2
  let x := (A.colEntries k).foldl (fun x e => x.set e.1 e.2.conj) st.1
  let d := (x.getD k CQ.zero).re
  let x := x.set k CQ.zero
  let inner := r.2.foldl
    (fun (s : List CQ × List Nat × List CQ × ℚ) j =>
      let j_start := Lp.getD j 0
      let row_idx := s.2.1.getD j 0 + 1
      let cur := s.2.1.set j row_idx
      let xj := s.1.getD j CQ.zero
      let x := s.1.set j CQ.zero
      let dj := (s.2.2.1.getD j_start CQ.zero).re
      let lkj := xj.scaleReal dj⁻¹
      let x := (List.range' (j_start+1) (row_idx - (j_start+1))).foldl
        (fun x p =>
          x.set (Lr.getD p 0)
            ((x.getD (Lr.getD p 0) CQ.zero).sub
              ((s.2.2.1.getD p CQ.zero).conj.mul xj))) x
      let d := s.2.2.2 - (lkj.mul xj.conj).re
      let Lv := s.2.2.1.set row_idx lkj
      (x, cur, Lv, d))
    (x, st.2.1, st.2.2.1, d)
  (inner.1, inner.2.1, inner.2.2.1.set (Lp.getD k 0) (CQ.fromReal inner.2.2.2), r.1)

/-- The numeric factorization state after the first K columns (the caller
provided L_values buffer is modelled zero-initialised; all positions the
claims inspect are written before being read). -/
def numFillUpTo (A : CscQ) (sym : SimpSym) (K : Nat) :
    List CQ × List Nat × List CQ × List Nat :=
  (List.range K).foldl (numColStep A sym.etree sym.col_ptrs sym.row_indices)
    (List.replicate A.n CQ.zero, sym.col_ptrs.take A.n,
     List.replicate (sym.col_ptrs.getD A.n 0) CQ.zero, List.replicate A.n A.n)

/-- factorize_simplicial_numeric_ldlt: the values of L (unit-lower columns
with the D entries stored on the diagonal slots). -/
def factorize_simplicial_numeric_ldlt (A : CscQ) (sym : SimpSym) : List CQ :=
  (numFillUpTo A sym A.n).2.2.1

/-! ### ghost_transpose: two-pass counting transpose of a valued CSC matrix -/

/-- A valued m x n CSC matrix over an arbitrary value type. -/
structure CscV (α : Type) where
  m : Nat
  n : Nat
  colPtr : List Nat
  rowInd : List Nat
  vals : List α

/-- The row indices of column j. -/
def CscV.rowsOfCol {α : Type} (A : CscV α) (j : Nat) : List Nat :=
  (A.rowInd.drop (A.colPtr.getD j 0)).take
    (A.colPtr.getD (j+1) 0 - A.colPtr.getD j 0)

/-- The (row, value) pairs of column j. -/
def CscV.colEntries {α : Type} (A : CscV α) (j : Nat) : List (Nat × α) :=
  ((A.rowInd.drop (A.colPtr.getD j 0)).take
      (A.colPtr.getD (j+1) 0 - A.colPtr.getD j 0)).zip
    ((A.vals.drop (A.colPtr.getD j 0)).take
      (A.colPtr.getD (j+1) 0 - A.colPtr.getD j 0))

/-- First pass of ghost_transpose: the number of entries in each row. -/
def transposeCounts {α : Type} (A : CscV α) : List Nat :=
  (List.range A.n).foldl
    (fun cnt j => (A.rowsOfCol j).foldl
      (fun cnt i => cnt.set i (cnt.getD i 0 + 1)) cnt)
    (List.replicate A.m 0)

/-- Second pass of ghost_transpose: scatter every (j, i, v) of A, walking the
columns in order, into the next free slot of row bucket i. State:
(new_row_ind, new_vals, current_row_position). -/
def transposeWritePass {α : Type} (A : CscV α) (cur0 : List Nat) (nnzT : Nat)
    (dflt : α) : List Nat × List α × List Nat :=
  (List.range A.n).foldl
    (fun st j => (A.colEntries j).foldl
      (fun (st : List Nat × List α × List Nat) e =>
        (st.1.set (st.2.2.getD e.1 0) j,
         st.2.1.set (st.2.2.getD e.1 0) e.2,
         st.2.2.set e.1 (st.2.2.getD e.1 0 + 1))) st)
    (List.replicate nnzT 0, List.replicate nnzT dflt, cur0)

/-- ghost_transpose. The sliding-window pass of the source simultaneously
produces new_col_ptr (the exclusive prefix sums of the counts) and
overwrites col_count with the per-row start positions; the embedding reuses
prefixSums and seeds the write pass with those start positions. The caller
provided output buffers are modelled as lists filled with 0 and dflt; every
position below new_col_ptr[m] is overwritten by the write pass. -/
def ghost_transpose {α : Type} (A : CscV α) (dflt : α) : CscV α :=
  let cnt := transposeCounts A
  let ncp := prefixSums cnt A.m
  let w := transposeWritePass A (ncp.take A.m) (ncp.getD A.m 0) dflt
  ⟨A.n, A.m, ncp, w.1, w.2.1⟩

/-- Well-formedness of a CSC matrix in sorted form: the column pointer array
has length n+1, starts at 0, is adjacently non-decreasing and ends at the
common length of the row index and value arrays; all row indices are below
m; and the rows within each column are strictly increasing. -/
def CscV.WF {α : Type} (A : CscV α) : Prop :=
  A.colPtr.length = A.n + 1 ∧
  A.colPtr.getD 0 0 = 0 ∧
  (∀ j, j < A.n → A.colPtr.getD j 0 ≤ A.colPtr.getD (j+1) 0) ∧
  A.colPtr.getD A.n 0 = A.rowInd.length ∧
  A.vals.length = A.rowInd.length ∧
  (∀ i, i ∈ A.rowInd → i < A.m) ∧
  (∀ j, j < A.n → List.Pairwise (· < ·) (A.rowsOfCol j))

/-- The body of the write pass, expressed over a flattened
(column, row, value) triple; transposeWritePass is the fold of this step
over the column-major entry stream. -/
def scatterStep {α : Type} (st : List Nat × List α × List Nat)
    (t : Nat × Nat × α) : List Nat × List α × List Nat :=
  (st.1.set (st.2.2.getD t.2.1 0) t.1,
   st.2.1.set (st.2.2.getD t.2.1 0) t.2.2,
   st.2.2.set t.2.1 (st.2.2.getD t.2.1 0 + 1))

/-- The flattened (column, row, value) entry stream of A in column-major
order: the order in which the write pass of ghost_transpose visits the
entries. -/
def entryStream {α : Type} (A : CscV α) : List (Nat × Nat × α) :=
  (List.range A.n).flatMap (fun j => (A.colEntries j).map (fun e => (j, e.1, e.2)))

/-- Mathematical characterization of column i of the transpose: the (column,
value) pairs of the entries of A with row index i, in column-major order. -/
def tCol {α : Type} (A : CscV α) (i : Nat) : List (Nat × α) :=
  (List.range A.n).flatMap
    (fun j => ((A.colEntries j).filter (fun e => e.1 == i)).map (fun e => (j, e.2)))

/-! ### Helper lemmas about List.getD and List.set -/

theorem getD_set_self {α : Type} (l : List α) (i : Nat) (a d : α) (h : i < l.length) :
    (l.set i a).getD i d = a := by
  rw [List.getD_eq_getElem _ _ (by simpa using h)]
  simp

theorem getD_set_ne {α : Type} (l : List α) {i j : Nat} (a d : α) (h : i ≠ j) :
    (l.set i a).getD j d = l.getD j d := by
  rcases Nat.lt_or_ge j l.length with hj | hj
  · rw [List.getD_eq_getElem _ _ (by simpa using hj), List.getD_eq_getElem _ _ hj]
    simp [List.getElem_set, h]
  · rw [List.getD_eq_default _ _ (by simpa using hj), List.getD_eq_default _ _ hj]

theorem getD_set {α : Type} (l : List α) (i j : Nat) (a d : α) :
    (l.set i a).getD j d = if i = j ∧ j < l.length then a else l.getD j d := by
  by_cases hij : i = j
  · subst hij
    by_cases h : i < l.length
    · simp [getD_set_self _ _ _ _ h, h]
    · simp [h, List.set_eq_of_length_le (Nat.le_of_not_lt h)]
  · simp [getD_set_ne _ _ _ hij, hij]

theorem getD_replicate {α : Type} {n i : Nat} (a d : α) (h : i < n) :
    (List.replicate n a).getD i d = a := by
  rw [List.getD_eq_getElem _ _ (by simpa using h)]
  simp

/-- C1: on the 11x11 fixture matrix, ghost_prefactorize_symbolic returns
etree = [5, 2, 7, 5, 7, 6, 8, 9, 9, 10, absent] and
col_counts = [3, 3, 4, 3, 3, 4, 4, 3, 3, 2, 1]. -/
theorem prefactorize_fixture_counts :
    etreeOf fixtureA =
      [some 5, some 2, some 7, some 5, some 7, some 6, some 8, some 9,
       some 9, some 10, none] ∧
    colCountsOf fixtureA = [3, 3, 4, 3, 3, 4, 4, 3, 3, 2, 1] := by
  constructor <;> decide

/-! ### Generic fold preservation lemmas -/

theorem foldl_preserve {α σ : Type} (P : σ → Prop) (f : σ → α → σ)
    (h : ∀ s a, P s → P (f s a)) :
    ∀ (l : List α) (s : σ), P s → P (l.foldl f s) := by
  intro l
  induction l with
  | nil => intro s hs; exact hs
  | cons a l ih => intro s hs; exact ih _ (h s a hs)

theorem foldl_chain {α σ : Type} (R : σ → σ → Prop)
    (htrans : ∀ {x y z}, R x y → R y z → R x z) (f : σ → α → σ)
    (hrefl : ∀ s, R s s) (h : ∀ s a, R s (f s a)) :
    ∀ (l : List α) (s : σ), R s (l.foldl f s) := by
  intro l
  induction l with
  | nil => intro s; exact hrefl s
  | cons a l ih => intro s; exact htrans (h s a) (ih (f s a))

/-! ### Invariants of ghost_prefactorize_symbolic (claim C6) -/

theorem walkP_wf {n j : Nat} :
    ∀ (fuel i : Nat) (st : PreState), PreWF n st → PreWF n (walkP j fuel i st) := by
  intro fuel
  induction fuel with
  | zero => intro i st h; exact h
  | succ fuel ih =>
    intro i st h
    rw [walkP]
    split
    · exact h
    · apply ih
      obtain ⟨h1, h2, h3⟩ := h
      refine ⟨?_, by simpa using h2, by simpa using h3⟩
      cases hE : st.etree.getD i none <;> simp [hE, h1]

theorem walkP_bnd {j : Nat} :
    ∀ (fuel i : Nat) (st : PreState), EtreeBnd st.etree (j+1) →
      st.vis.getD j 0 = j → i ≤ j →
      EtreeBnd (walkP j fuel i st).etree (j+1) ∧
        (walkP j fuel i st).vis.getD j 0 = j := by
  intro fuel
  induction fuel with
  | zero => intro i st hB hv _; exact ⟨hB, hv⟩
  | succ fuel ih =>
    intro i st hB hv hij
    rw [walkP]
    split
    · exact ⟨hB, hv⟩
    · rename_i hvis
      have hne : i ≠ j := fun h => hvis (h ▸ hv)
      have hilt : i < j := Nat.lt_of_le_of_ne hij hne
      have hvisj : (st.vis.set i j).getD j 0 = j := by
        rw [getD_set_ne _ _ _ hne]; exact hv
      cases hE : st.etree.getD i none with
      | some p =>
        have hp := hB i p hE
        exact ih p ⟨st.etree, _, _⟩ (by simpa [hE] using hB)
          (by simpa [hE] using hvisj) (Nat.lt_succ_iff.mp hp.2)
      | none =>
        refine ih j _ ?_ (by simpa [hE] using hvisj) (Nat.le_refl j)
        intro m p hm
        simp only [hE] at hm ⊢
        rcases eq_or_ne i m with rfl | hmne
        · by_cases hlen : i < st.etree.length
          · rw [getD_set_self _ _ _ _ hlen] at hm
            cases hm
            exact ⟨hilt, Nat.lt_succ_self j⟩
          · rw [List.set_eq_of_length_le (Nat.le_of_not_lt hlen)] at hm
            exact hB _ _ hm
        · rw [getD_set_ne _ _ _ hmne] at hm
          exact hB _ _ hm

theorem walkP_cc_mono {j : Nat} :
    ∀ (fuel i : Nat) (st : PreState) (m : Nat),
      st.cc.getD m 0 ≤ (walkP j fuel i st).cc.getD m 0 := by
  intro fuel
  induction fuel with
  | zero => intro i st m; exact Nat.le_refl _
  | succ fuel ih =>
    intro i st m
    rw [walkP]
    split
    · exact Nat.le_refl _
    · refine Nat.le_trans ?_ (ih _ _ m)
      simp only
      rw [getD_set]
      split
      · rename_i hc
        obtain ⟨rfl, _⟩ := hc
        exact Nat.le_succ _
      · exact Nat.le_refl _

theorem colP_wf {n : Nat} (A : Csc) (j : Nat) (st : PreState) (h : PreWF n st) :
    PreWF n (colP A st j) := by
  unfold colP
  apply foldl_preserve (PreWF n)
  · intro s i hs
    split
    · exact walkP_wf _ _ _ hs
    · exact hs
  · obtain ⟨h1, h2, h3⟩ := h
    exact ⟨h1, by simpa using h2, by simpa using h3⟩

theorem colP_bnd {n : Nat} (A : Csc) (j : Nat) (st : PreState)
    (hwf : PreWF n st) (hjn : j < n) (hB : EtreeBnd st.etree j) :
    EtreeBnd (colP A st j).etree (j+1) := by
  unfold colP
  have h0 : EtreeBnd st.etree (j+1) := by
    intro m p hm
    obtain ⟨h1, h2⟩ := hB m p hm
    exact ⟨h1, Nat.lt_succ_of_lt h2⟩
  have hvlen : j < st.vis.length := by rw [hwf.2.2]; exact hjn
  have := foldl_preserve
    (fun s : PreState => EtreeBnd s.etree (j+1) ∧ s.vis.getD j 0 = j)
    (fun st i => if i < j then walkP j A.n i st else st) ?_ (A.col j)
    ⟨st.etree, st.cc.set j 1, st.vis.set j j⟩
    ⟨h0, getD_set_self _ _ _ _ hvlen⟩
  · exact this.1
  · intro s i hs
    dsimp only
    split
    · exact walkP_bnd _ _ _ hs.1 hs.2 (by omega)
    · exact hs

theorem prefact_wf (A : Csc) : PreWF A.n (ghost_prefactorize_symbolic A) := by
  unfold ghost_prefactorize_symbolic
  apply foldl_preserve (PreWF A.n)
  · intro s j hs; exact colP_wf A j s hs
  · exact ⟨by simp, by simp, by simp⟩

theorem prefactUpTo_inv (A : Csc) :
    ∀ K, K ≤ A.n →
      PreWF A.n ((List.range K).foldl (colP A)
        ⟨List.replicate A.n none, List.replicate A.n 0, List.replicate A.n A.n⟩) ∧
      EtreeBnd ((List.range K).foldl (colP A)
        ⟨List.replicate A.n none, List.replicate A.n 0, List.replicate A.n A.n⟩).etree K := by
  intro K
  induction K with
  | zero =>
    intro _
    refine ⟨⟨by simp, by simp, by simp⟩, ?_⟩
    intro m p hm
    rw [List.range_zero, List.foldl_nil] at hm
    simp only at hm
    rcases Nat.lt_or_ge m A.n with h | h
    · rw [getD_replicate _ _ h] at hm; cases hm
    · rw [List.getD_eq_default] at hm
      · cases hm
      · simpa using h
  | succ K ih =>
    intro hK
    have hKn : K < A.n := hK
    obtain ⟨hwf, hB⟩ := ih (Nat.le_of_lt hKn)
    rw [List.range_succ, List.foldl_append]
    exact ⟨colP_wf A K _ hwf, colP_bnd A K _ hwf hKn hB⟩

theorem prefact_bnd (A : Csc) : EtreeBnd (etreeOf A) A.n :=
  (prefactUpTo_inv A A.n (Nat.le_refl _)).2

theorem parentIter_gt {et : List (Option Nat)}
    (h : ∀ m p, et.getD m none = some p → m < p) :
    ∀ (k i r : Nat), parentIter et (k+1) i = some r → i < r := by
  intro k
  induction k with
  | zero =>
    intro i r hp
    rw [parentIter] at hp
    cases hE : et.getD i none with
    | none => rw [hE] at hp; cases hp
    | some p =>
      rw [hE] at hp
      simp only [parentIter] at hp
      cases hp
      exact h _ _ hE
  | succ k ih =>
    intro i r hp
    rw [parentIter] at hp
    cases hE : et.getD i none with
    | none => rw [hE] at hp; cases hp
    | some p =>
      rw [hE] at hp
      exact Nat.lt_trans (h _ _ hE) (ih p r hp)

theorem walkP_cc_ge_one {j m : Nat} :
    ∀ (fuel i : Nat) (st : PreState), 1 ≤ st.cc.getD m 0 →
      1 ≤ (walkP j fuel i st).cc.getD m 0 :=
  fun fuel i st h => Nat.le_trans h (walkP_cc_mono fuel i st m)

theorem colP_cc_ge (A : Csc) (j : Nat) (st : PreState) {n : Nat}
    (hwf : PreWF n st) (hjn : j < n)
    (h : ∀ m, m < j → 1 ≤ st.cc.getD m 0) :
    ∀ m, m < j + 1 → 1 ≤ (colP A st j).cc.getD m 0 := by
  have hclen : j < st.cc.length := by rw [hwf.2.1]; exact hjn
  have hstep : ∀ m, m < j + 1 →
      1 ≤ (st.cc.set j 1).getD m 0 := by
    intro m hm
    rcases eq_or_ne j m with rfl | hne
    · rw [getD_set_self _ _ _ _ hclen]
    · rw [getD_set_ne _ _ _ hne]
      exact h m (by omega)
  unfold colP
  have := foldl_preserve
    (fun s : PreState => ∀ m, m < j + 1 → 1 ≤ s.cc.getD m 0)
    (fun st i => if i < j then walkP j A.n i st else st) ?_ (A.col j)
    ⟨st.etree, st.cc.set j 1, st.vis.set j j⟩ ?_
  · exact this
  · intro s i hs m hm
    dsimp only
    split
    · exact walkP_cc_ge_one _ _ _ (hs m hm)
    · exact hs m hm
  · intro m hm; exact hstep m hm

theorem prefact_cc_ge_one (A : Csc) :
    ∀ m, m < A.n → 1 ≤ (colCountsOf A).getD m 0 := by
  suffices h : ∀ K, K ≤ A.n → ∀ m, m < K →
      1 ≤ ((List.range K).foldl (colP A)
        ⟨List.replicate A.n none, List.replicate A.n 0, List.replicate A.n A.n⟩).cc.getD m 0 by
    exact h A.n (Nat.le_refl _)
  intro K
  induction K with
  | zero => intro _ m hm; omega
  | succ K ih =>
    intro hK m hm
    have hKn : K < A.n := hK
    rw [List.range_succ, List.foldl_append]
    exact colP_cc_ge A K _ (prefactUpTo_inv A K (Nat.le_of_lt hKn)).1 hKn
      (ih (Nat.le_of_lt hKn)) m hm

/-- C6: for every input, every assigned etree parent satisfies etree[j] > j
(roots are absent), following parent pointers never returns to the start
(acyclicity), and every column count is at least 1. -/
theorem prefactorize_invariants (A : Csc) :
    (∀ j p, (etreeOf A).getD j none = some p → j < p) ∧
    (∀ k i, parentIter (etreeOf A) (k+1) i ≠ some i) ∧
    (∀ j, j < A.n → 1 ≤ (colCountsOf A).getD j 0) := by
  have hgt : ∀ j p, (etreeOf A).getD j none = some p → j < p :=
    fun j p h => (prefact_bnd A j p h).1
  refine ⟨hgt, ?_, prefact_cc_ge_one A⟩
  intro k i hp
  exact Nat.lt_irrefl i (parentIter_gt hgt k i i hp)

/-- Witness for C6 at the concrete fixture. -/
theorem prefactorize_invariants_witness :
    0 < fixtureA.n ∧ 1 ≤ (colCountsOf fixtureA).getD 0 0 :=
  ⟨by decide, (prefactorize_invariants fixtureA).2.2 0 (by decide)⟩

/-! ### Claim C4: fundamental supernode discovery -/

theorem countP_singleton {α : Type} (p : α → Bool) (a : α) :
    List.countP p [a] = if p a then 1 else 0 := by
  simp [List.countP_cons]

theorem childCount_getD (et : List (Option Nat)) (n : Nat) :
    ∀ p, p < n → (childCount et n).getD p 0 =
      (List.range n).countP (fun m => et.getD m none == some p) := by
  suffices h : ∀ K,
      (∀ p, p < n → ((List.range K).foldl
        (fun cnt j =>
          match et.getD j none with
          | some q => cnt.set q (cnt.getD q 0 + 1)
          | none => cnt) (List.replicate n 0)).getD p 0 =
        (List.range K).countP (fun m => et.getD m none == some p)) ∧
      ((List.range K).foldl
        (fun cnt j =>
          match et.getD j none with
          | some q => cnt.set q (cnt.getD q 0 + 1)
          | none => cnt) (List.replicate n 0)).length = n by
    intro p hp
    unfold childCount
    exact (h n).1 p hp
  intro K
  induction K with
  | zero =>
    constructor
    · intro p hp
      simp [getD_replicate _ _ hp]
    · simp
  | succ K ih =>
    obtain ⟨ih1, ih2⟩ := ih
    rw [List.range_succ, List.foldl_append, List.foldl_cons, List.foldl_nil]
    constructor
    · intro p hp
      rw [List.countP_append, countP_singleton]
      cases hE : et.getD K none with
      | none =>
        simp only [hE]
        rw [ih1 p hp]
        simp [hE]
      | some q =>
        simp only [hE]
        rcases eq_or_ne q p with rfl | hne
        · rw [getD_set, ih2, if_pos ⟨rfl, hp⟩, ih1 q hp]
          simp [hE]
        · rw [getD_set_ne _ _ _ hne, ih1 p hp]
          simp [hE, hne]
    · cases hE : et.getD K none with
      | none => simpa [hE] using ih2
      | some q => simpa [hE] using ih2

/-- C4: column j joins the supernode of column j-1 exactly when j is the
etree parent of j-1, j has exactly one etree child, and
col_counts[j-1] = col_counts[j] + 1. -/
theorem fundamental_supernode_partition (et : List (Option Nat)) (cc : List Nat)
    (n j : Nat) (hj : 1 ≤ j) (hjn : j < n) :
    superOf et cc (childCount et n) n j = superOf et cc (childCount et n) n (j-1) ↔
      (et.getD (j-1) none = some j ∧
        (List.range n).countP (fun m => et.getD m none == some j) = 1 ∧
        cc.getD (j-1) 0 = cc.getD j 0 + 1) := by
  obtain ⟨j', rfl⟩ : ∃ j', j = j' + 1 := ⟨j - 1, by omega⟩
  simp only [Nat.add_sub_cancel]
  unfold superOf superScanUpTo
  have hconcat : List.range' 1 (j' + 1) = List.range' 1 j' ++ [1 + j'] :=
    List.range'_1_concat 1 j'
  rw [hconcat, List.foldl_append, List.foldl_cons, List.foldl_nil]
  have h1j : 1 + j' = j' + 1 := by omega
  rw [h1j]
  rw [← childCount_getD et n (j' + 1) hjn]
  have hBiff : sameSupernodeB et cc (childCount et n) (j' + 1) = true ↔
      (et.getD j' none = some (j' + 1) ∧
        (childCount et n).getD (j' + 1) 0 = 1 ∧
        cc.getD j' 0 = cc.getD (j' + 1) 0 + 1) := by
    unfold sameSupernodeB
    simp [Nat.add_sub_cancel, and_assoc]
  simp only [superScanStep, Nat.add_sub_cancel]
  by_cases hB : sameSupernodeB et cc (childCount et n) (j' + 1) = true
  · rw [if_pos hB]
    exact iff_of_true rfl (hBiff.mp hB)
  · rw [if_neg hB]
    exact iff_of_false (Nat.succ_ne_self _) (fun hC => hB (hBiff.mpr hC))

/-- Witness for C4: on the fixture etree and counts, column 10 joins the
supernode of column 9. -/
theorem fundamental_supernode_partition_witness :
    superOf [some 5, some 2, some 7, some 5, some 7, some 6, some 8, some 9,
        some 9, some 10, none] [3, 3, 4, 3, 3, 4, 4, 3, 3, 2, 1]
      (childCount [some 5, some 2, some 7, some 5, some 7, some 6, some 8,
        some 9, some 9, some 10, none] 11) 11 10 =
    superOf [some 5, some 2, some 7, some 5, some 7, some 6, some 8, some 9,
        some 9, some 10, none] [3, 3, 4, 3, 3, 4, 4, 3, 3, 2, 1]
      (childCount [some 5, some 2, some 7, some 5, some 7, some 6, some 8,
        some 9, some 9, some 10, none] 11) 11 9 :=
  (fundamental_supernode_partition _ _ 11 10 (by decide) (by decide)).mpr
    (by decide)

/-! ### Claim C2: relaxed supernode merge acceptance -/

theorem findCutoff_isSome (a b c : Nat) :
    ∀ l : List (Nat × ℚ), (findCutoff a b c l).isSome = true ↔
      ∃ x ∈ l, a ≤ x.1 ∧ (c : ℚ) ≤ (b : ℚ) * x.2 := by
  intro l
  induction l with
  | nil => simp [findCutoff]
  | cons x rest ih =>
    rw [findCutoff]
    by_cases hx : a ≤ x.1 ∧ (c : ℚ) ≤ (b : ℚ) * x.2
    · simp [hx]
    · simp only [hx, if_false, ih]
      constructor
      · intro ⟨y, hy, h⟩; exact ⟨y, List.mem_cons_of_mem _ hy, h⟩
      · intro ⟨y, hy, h⟩
        rcases List.mem_cons.mp hy with rfl | hy
        · exact absurd h hx
        · exact ⟨y, hy, h⟩

/-- C2 counterexample: with relaxation list [(4, 1.0)], parent size 1, child
size 1, parent degree 2, child degree 0 and 5 + 5 accumulated zeros, the
code rejects the merge although the cutoff inequality of the claim
(num_zeros <= n_cut * num_expanded_entries * z_cut) holds. -/
theorem merge_criterion_counterexample :
    ¬ ((mergeStatus [(4, 1)] 1 1 2 0 5 5).isSome = true ↔
        ∃ c ∈ [((4 : Nat), (1 : ℚ))],
          1 + 1 ≤ c.1 ∧ (13 : ℚ) ≤ (c.1 : ℚ) * 7 * c.2) := by
  intro h
  have hnone : mergeStatus [(4, 1)] 1 1 2 0 5 5 = none := by
    norm_num [mergeStatus, findCutoff]
  have hsome := h.mpr ⟨(4, 1), by simp, by norm_num, by norm_num⟩
  rw [hnone] at hsome
  simp at hsome

/-- C2 amended: a candidate merge is accepted iff it introduces no new
explicit zeros at all, or some cutoff (n_cut, z_cut) of the relaxation list
satisfies combined_size <= n_cut and
num_zeros_after_merge <= num_expanded_entries * z_cut (the bound is not
additionally scaled by n_cut). -/
theorem merge_criterion (relax : List (Nat × ℚ))
    (ps cs pd cd pz cz : Nat) (_hcd : cd ≤ ps + pd) :
    (mergeStatus relax ps cs pd cd pz cz).isSome = true ↔
      ((ps + pd - cd) * cs = 0 ∨
        ∃ c ∈ relax, cs + ps ≤ c.1 ∧
          (((ps + pd - cd) * cs + (cz + pz) : Nat) : ℚ) ≤
            (((cs + ps) * (cs + ps + 1) / 2 + pd * (cs + ps) : Nat) : ℚ) * c.2) := by
  unfold mergeStatus
  by_cases h0 : (ps + pd - cd) * cs = 0
  · simp [h0]
  · simp only [h0, if_false, false_or]
    exact findCutoff_isSome _ _ _ relax

/-- Witness for the amended C2 at a concrete accepted merge. -/
theorem merge_criterion_witness :
    (0 : Nat) ≤ 1 + 2 ∧ (mergeStatus [(4, 1)] 1 1 2 0 1 1).isSome = true :=
  ⟨by decide, (merge_criterion [(4, 1)] 1 1 2 0 1 1 (by decide)).mpr
    (Or.inr ⟨(4, 1), by simp, by norm_num, by norm_num⟩)⟩

/-! ### Claim C3: flop ratio driven algorithm selection -/

/-- C3: factorize_symbolic selects the supernodal factorization exactly when
flops / L_nnz exceeds the threshold (equivalently flops > threshold * L_nnz),
and the default threshold is 40.0. -/
theorem flop_ratio_selection (flops : ℚ) (cc : List Nat) (threshold : ℚ)
    (h : 0 < LnnzOf cc) :
    (chooseCholeskyKind flops (LnnzOf cc) threshold = .supernodal ↔
      flops / (LnnzOf cc : ℚ) > threshold) ∧
    (flops / (LnnzOf cc : ℚ) > threshold ↔
      flops > threshold * (LnnzOf cc : ℚ)) ∧
    CholeskyParams.default.supernodal_flop_ratio_threshold = 40 := by
  refine ⟨?_, ?_, rfl⟩
  · unfold chooseCholeskyKind
    split <;> simp_all
  · exact lt_div_iff₀ (by exact_mod_cast h)

/-- Witness for C3 at concrete inputs. -/
theorem flop_ratio_selection_witness :
    chooseCholeskyKind 100 (LnnzOf [1]) 40 = .supernodal :=
  ((flop_ratio_selection 100 [1] 40 (by decide)).1).mpr (by norm_num [LnnzOf])

/-! ### Claim C10: the empty dimension -/

/-- C10: for n = 0, ghost_factorize_supernodal_symbolic returns Ok with zero
supernodes: supernode_begin = [0], both column pointer arrays = [0], empty
row index and postorder arrays, zero supernodes and zero values. -/
theorem supernodal_empty_input (A : Csc) (et : List (Option Nat)) (cc : List Nat)
    (relax : Option (List (Nat × ℚ))) (IMAX : Nat) (h : A.n = 0) :
    ghost_factorize_supernodal_symbolic A et cc relax IMAX =
      .ok ⟨0, [], [], [], [0], [0], [0], []⟩ ∧
    (⟨0, [], [], [], [0], [0], [0], []⟩ : SupSym).n_supernodes = 0 ∧
    (⟨0, [], [], [], [0], [0], [0], []⟩ : SupSym).len_values = 0 := by
  refine ⟨?_, rfl, rfl⟩
  unfold ghost_factorize_supernodal_symbolic
  rw [if_pos h]

/-- Witness for C10 at the concrete empty matrix. -/
theorem supernodal_empty_input_witness :
    ghost_factorize_supernodal_symbolic ⟨0, [0], []⟩ [] [] none 0 =
      .ok ⟨0, [], [], [], [0], [0], [0], []⟩ :=
  (supernodal_empty_input ⟨0, [0], []⟩ [] [] none 0 rfl).1

/-! ### Claim C8: the frontal-size overflow check -/

theorem range_map_sum_succ (f : Nat → Nat) (K : Nat) :
    ((List.range (K+1)).map f).sum = ((List.range K).map f).sum + f K := by
  rw [List.range_succ, List.map_append, List.sum_append]
  simp

theorem superScanUpTo_fst_le (et : List (Option Nat)) (cc ch : List Nat)
    (n : Nat) : ∀ j, (superScanUpTo et cc ch n j).1 ≤ j := by
  intro j
  induction j with
  | zero => simp [superScanUpTo]
  | succ j ih =>
    unfold superScanUpTo at ih ⊢
    rw [List.range'_1_concat, List.foldl_append, List.foldl_cons, List.foldl_nil]
    simp only [superScanStep]
    split
    · omega
    · omega

theorem superScanUpTo_snd_len (et : List (Option Nat)) (cc ch : List Nat)
    (n : Nat) : ∀ j, (superScanUpTo et cc ch n j).2.length = n := by
  intro j
  unfold superScanUpTo
  have := foldl_preserve (fun st : Nat × List Nat => st.2.length = n)
    (superScanStep et cc ch) ?_ (List.range' 1 j)
    (0, (List.replicate n 0).set 0 1) (by simp)
  · exact this
  · intro s a hs
    simp only [superScanStep]
    simpa using hs

theorem fundamentalDegrees_len (cc sizes : List Nat) (S : Nat) :
    (fundamentalDegrees cc sizes S).length = S := by
  unfold fundamentalDegrees
  exact foldl_preserve (fun st : List Nat × Nat => st.1.length = S)
    (fun st s =>
      (st.1.set s (cc.getD (st.2 + sizes.getD s 0 - 1) 0 - 1), st.2 + sizes.getD s 0))
    (fun st a hs => by simpa using hs) (List.range S) (List.replicate S 0, 0)
    (by simp)

theorem mergeLoop_sizes_len (childLists childListHeads : List (Option Nat))
    (degrees : List Nat) (relax : List (Nat × ℚ)) (parent S : Nat) :
    ∀ (fuel : Nat) (st : MergeState),
      (mergeLoop childLists childListHeads degrees relax parent S fuel st).sizes.length =
        st.sizes.length := by
  intro fuel
  induction fuel with
  | zero => intro st; rfl
  | succ fuel ih =>
    intro st
    rw [mergeLoop]
    split
    · rfl
    · rw [ih]
      simp

theorem relaxPass_sizes_len (superEtree : List (Option Nat)) (cc sizes0 : List Nat)
    (relax : List (Nat × ℚ)) (S : Nat) :
    (relaxPass superEtree cc sizes0 relax S).1.sizes.length = sizes0.length := by
  unfold relaxPass
  exact foldl_preserve (fun st : MergeState => st.sizes.length = sizes0.length)
    (fun st parent => mergeLoop (buildChildLists superEtree S).1
      (buildChildLists superEtree S).2 (fundamentalDegrees cc sizes0 S)
      relax parent S (S+1) st)
    (fun st a hs => by dsimp only; rw [mergeLoop_sizes_len]; exact hs) (List.range S)
    ⟨List.replicate S none, List.replicate S none, sizes0, List.replicate S 0⟩ rfl

theorem compact_facts (sizes degrees : List Nat) (S : Nat) :
    (compactSupernodes sizes degrees S).1 ≤ S ∧
    (compactSupernodes sizes degrees S).2.1.length = sizes.length ∧
    (compactSupernodes sizes degrees S).2.2.length = degrees.length := by
  unfold compactSupernodes
  induction S with
  | zero => simp
  | succ K ih =>
    rw [List.range_succ, List.foldl_append, List.foldl_cons, List.foldl_nil]
    obtain ⟨ih1, ih2, ih3⟩ := ih
    generalize hst : (List.range K).foldl compactStep (0, sizes, degrees) = st at ih1 ih2 ih3
    unfold compactStep
    dsimp only
    split
    · exact ⟨by omega, by simpa using ih2, by simpa using ih3⟩
    · exact ⟨by omega, ih2, ih3⟩

theorem postorderDFSLoop_post_len (nextChild : List (Option Nat)) :
    ∀ (fuel : Nat) (st : List Nat × Nat × List Nat × Nat × List (Option Nat)),
      (postorderDFSLoop nextChild fuel st).1.length = st.1.length := by
  intro fuel
  induction fuel with
  | zero => intro st; rfl
  | succ fuel ih =>
    intro st
    rw [postorderDFSLoop]
    split
    · rfl
    · dsimp only
      split
      · rw [ih]
      · rw [ih]
        simp

theorem ghost_postorder_len (et : List (Option Nat)) (S : Nat) :
    (ghost_postorder et S).length = S := by
  unfold ghost_postorder
  refine foldl_preserve
    (fun st : List Nat × Nat × List (Option Nat) => st.1.length = S)
    (fun st root =>
      match et.getD root none with
      | some _ => st
      | none =>
        let r := postorderDFSLoop (buildChildLinks et S).2 (2*S+1)
          (st.1, st.2.1, (List.replicate S 0).set 0 root, 1, st.2.2)
        (r.1, r.2.1, r.2.2.2.2)) ?_
    (List.range S) (List.replicate S 0, 0, (buildChildLinks et S).1) (by simp)
  intro st root hs
  dsimp only
  cases et.getD root none with
  | some p => exact hs
  | none =>
    dsimp only
    rw [postorderDFSLoop_post_len]
    exact hs

theorem foldl_range_succ {α : Type} (f : α → Nat → α) (i : α) (K : Nat) :
    (List.range (K+1)).foldl f i = f ((List.range K).foldl f i) K := by
  rw [List.range_succ, List.foldl_append, List.foldl_cons, List.foldl_nil]

theorem assemble_spec (sbDeg sizes : List Nat) (S : Nat)
    (hlen : sbDeg.length = S + 1) (h0 : sbDeg.getD 0 0 = 0) :
    ∀ K, K ≤ S →
      (((List.range K).foldl assembleStep
        ⟨sbDeg, sizes, List.replicate (S+1) 0, List.replicate (S+1) 0, 0, 0, 0⟩).sb.length = S + 1) ∧
      (((List.range K).foldl assembleStep
        ⟨sbDeg, sizes, List.replicate (S+1) 0, List.replicate (S+1) 0, 0, 0, 0⟩).cpr.length = S + 1) ∧
      (((List.range K).foldl assembleStep
        ⟨sbDeg, sizes, List.replicate (S+1) 0, List.replicate (S+1) 0, 0, 0, 0⟩).cpv.length = S + 1) ∧
      (∀ t, K < t → ((List.range K).foldl assembleStep
        ⟨sbDeg, sizes, List.replicate (S+1) 0, List.replicate (S+1) 0, 0, 0, 0⟩).sb.getD t 0 = sbDeg.getD t 0) ∧
      (∀ t, K ≤ t → ((List.range K).foldl assembleStep
        ⟨sbDeg, sizes, List.replicate (S+1) 0, List.replicate (S+1) 0, 0, 0, 0⟩).sizes.getD t 0 = sizes.getD t 0) ∧
      (((List.range K).foldl assembleStep
        ⟨sbDeg, sizes, List.replicate (S+1) 0, List.replicate (S+1) 0, 0, 0, 0⟩).rowPtr =
        ((List.range K).map (fun u => sbDeg.getD (u+1) 0)).sum) ∧
      (((List.range K).foldl assembleStep
        ⟨sbDeg, sizes, List.replicate (S+1) 0, List.replicate (S+1) 0, 0, 0, 0⟩).valPtr =
        ((List.range K).foldl assembleStep
        ⟨sbDeg, sizes, List.replicate (S+1) 0, List.replicate (S+1) 0, 0, 0, 0⟩).wide) ∧
      (((List.range K).foldl assembleStep
        ⟨sbDeg, sizes, List.replicate (S+1) 0, List.replicate (S+1) 0, 0, 0, 0⟩).wide =
        ((List.range K).map
          (fun u => (sbDeg.getD (u+1) 0 + sizes.getD u 0) * sizes.getD u 0)).sum) ∧
      (∀ t, t ≤ K → ((List.range K).foldl assembleStep
        ⟨sbDeg, sizes, List.replicate (S+1) 0, List.replicate (S+1) 0, 0, 0, 0⟩).sb.getD t 0 =
        ((List.range t).map (fun u => sizes.getD u 0)).sum) ∧
      (∀ s, s < K → ((List.range K).foldl assembleStep
        ⟨sbDeg, sizes, List.replicate (S+1) 0, List.replicate (S+1) 0, 0, 0, 0⟩).cpr.getD s 0 =
        ((List.range s).map (fun u => sbDeg.getD (u+1) 0)).sum) ∧
      (∀ s, s < K → ((List.range K).foldl assembleStep
        ⟨sbDeg, sizes, List.replicate (S+1) 0, List.replicate (S+1) 0, 0, 0, 0⟩).cpv.getD s 0 =
        ((List.range s).map
          (fun u => (sbDeg.getD (u+1) 0 + sizes.getD u 0) * sizes.getD u 0)).sum) := by
  intro K
  induction K with
  | zero =>
    intro _
    refine ⟨hlen, by simp, by simp, fun t _ => rfl, fun t _ => rfl, by simp, rfl,
      by simp, ?_, fun s hs => absurd hs (by omega), fun s hs => absurd hs (by omega)⟩
    intro t ht
    interval_cases t
    simpa using h0
  | succ K ih =>
    intro hK
    have hKS : K < S := hK
    obtain ⟨ihsb, ihcpr, ihcpv, ihsbhi, ihszhi, ihrow, ihvv, ihw, ihsblo, ihcprlo, ihcpvlo⟩ :=
      ih (Nat.le_of_lt hKS)
    rw [foldl_range_succ]
    generalize hasm : (List.range K).foldl assembleStep
      ⟨sbDeg, sizes, List.replicate (S+1) 0, List.replicate (S+1) 0, 0, 0, 0⟩ = asm
    rw [hasm] at ihsb ihcpr ihcpv ihsbhi ihszhi ihrow ihvv ihw ihsblo ihcprlo ihcpvlo
    have hdeg : asm.sb.getD (K+1) 0 = sbDeg.getD (K+1) 0 := ihsbhi (K+1) (by omega)
    have hsz : asm.sizes.getD K 0 = sizes.getD K 0 := ihszhi K (by omega)
    have hsbK : asm.sb.getD K 0 = ((List.range K).map (fun u => sizes.getD u 0)).sum :=
      ihsblo K (by omega)
    unfold assembleStep
    dsimp only
    refine ⟨by simpa using ihsb, by simpa using ihcpr, by simpa using ihcpv,
      ?_, ?_, ?_, ?_, ?_, ?_, ?_, ?_⟩
    · intro t ht
      rw [getD_set_ne _ _ _ (by omega)]
      exact ihsbhi t (by omega)
    · intro t ht
      rw [getD_set_ne _ _ _ (by omega)]
      exact ihszhi t (by omega)
    · rw [range_map_sum_succ, ihrow, hdeg]
    · rw [ihvv]
    · rw [range_map_sum_succ, ihw, hdeg, hsz]
    · intro t ht
      rcases eq_or_ne t (K+1) with rfl | hne
      · rw [getD_set_self _ _ _ _ (by rw [ihsb]; omega), hsbK, hsz,
          range_map_sum_succ]
      · rw [getD_set_ne _ _ _ (Ne.symm hne)]
        exact ihsblo t (by omega)
    · intro s hs
      rcases eq_or_ne s K with rfl | hne
      · rw [getD_set_self _ _ _ _ (by rw [ihcpr]; omega), ihrow]
      · rw [getD_set_ne _ _ _ (Ne.symm hne)]
        exact ihcprlo s (by omega)
    · intro s hs
      rcases eq_or_ne s K with rfl | hne
      · rw [getD_set_self _ _ _ _ (by rw [ihcpv]; omega), ihvv, ihw]
      · rw [getD_set_ne _ _ _ (Ne.symm hne)]
        exact ihcpvlo s (by omega)

theorem partition_sbDeg_facts (A : Csc) (et : List (Option Nat)) (cc : List Nat)
    (relax : Option (List (Nat × ℚ))) :
    (supernodalPartition A et cc relax).2.2.length =
      (supernodalPartition A et cc relax).1 + 1 ∧
    (supernodalPartition A et cc relax).2.2.getD 0 0 = 0 := by
  unfold supernodalPartition
  cases relax with
  | none =>
    constructor
    · simp [fundamentalDegrees_len]
    · rfl
  | some r =>
    dsimp only
    constructor
    · have hc := compact_facts
        (relaxPass (computeSuperEtree et ((superScan et cc (childCount et A.n) A.n).2.take
            ((superScan et cc (childCount et A.n) A.n).1 + 1))
            (fillIndexToSuper ((superScan et cc (childCount et A.n) A.n).2.take
              ((superScan et cc (childCount et A.n) A.n).1 + 1))
              ((superScan et cc (childCount et A.n) A.n).1 + 1) A.n)
            ((superScan et cc (childCount et A.n) A.n).1 + 1))
          cc ((superScan et cc (childCount et A.n) A.n).2.take
            ((superScan et cc (childCount et A.n) A.n).1 + 1)) r
          ((superScan et cc (childCount et A.n) A.n).1 + 1)).1.sizes
        (relaxPass (computeSuperEtree et ((superScan et cc (childCount et A.n) A.n).2.take
            ((superScan et cc (childCount et A.n) A.n).1 + 1))
            (fillIndexToSuper ((superScan et cc (childCount et A.n) A.n).2.take
              ((superScan et cc (childCount et A.n) A.n).1 + 1))
              ((superScan et cc (childCount et A.n) A.n).1 + 1) A.n)
            ((superScan et cc (childCount et A.n) A.n).1 + 1))
          cc ((superScan et cc (childCount et A.n) A.n).2.take
            ((superScan et cc (childCount et A.n) A.n).1 + 1)) r
          ((superScan et cc (childCount et A.n) A.n).1 + 1)).2
        ((superScan et cc (childCount et A.n) A.n).1 + 1)
      obtain ⟨hc1, _, hc3⟩ := hc
      have hdl : (relaxPass (computeSuperEtree et ((superScan et cc (childCount et A.n) A.n).2.take
            ((superScan et cc (childCount et A.n) A.n).1 + 1))
            (fillIndexToSuper ((superScan et cc (childCount et A.n) A.n).2.take
              ((superScan et cc (childCount et A.n) A.n).1 + 1))
              ((superScan et cc (childCount et A.n) A.n).1 + 1) A.n)
            ((superScan et cc (childCount et A.n) A.n).1 + 1))
          cc ((superScan et cc (childCount et A.n) A.n).2.take
            ((superScan et cc (childCount et A.n) A.n).1 + 1)) r
          ((superScan et cc (childCount et A.n) A.n).1 + 1)).2.length =
          (superScan et cc (childCount et A.n) A.n).1 + 1 := by
        unfold relaxPass
        exact fundamentalDegrees_len _ _ _
      simp only [List.length_cons, List.length_take, hc3, hdl]
      omega
    · rfl

/-- C8: the frontal value-count overflow check. Whenever the total frontal
size exceeds IMAX the factorization returns IndexOverflow; on Ok the
len_values of the result equals that total, which also equals the sum over
the supernodes of (ncols + pattern_len) * ncols read off the result. -/
theorem supernodal_overflow_check (A : Csc) (et : List (Option Nat))
    (cc : List Nat) (relax : Option (List (Nat × ℚ))) (IMAX : Nat) :
    (supernodalWide A et cc relax > IMAX →
      ghost_factorize_supernodal_symbolic A et cc relax IMAX =
        .error .indexOverflow) ∧
    (∀ sym, ghost_factorize_supernodal_symbolic A et cc relax IMAX = .ok sym →
      sym.len_values = supernodalWide A et cc relax ∧
      supernodalWide A et cc relax ≤ IMAX ∧
      sym.len_values = ((List.range sym.n_supernodes).map (fun s =>
        ((sym.supernode_begin.getD (s+1) 0 - sym.supernode_begin.getD s 0) +
          (sym.col_ptrs_for_row_indices.getD (s+1) 0 -
            sym.col_ptrs_for_row_indices.getD s 0)) *
        (sym.supernode_begin.getD (s+1) 0 -
          sym.supernode_begin.getD s 0))).sum) := by
  by_cases hn : A.n = 0
  · constructor
    · intro hgt
      rw [supernodalWide, if_pos hn] at hgt
      omega
    · intro sym hsym
      rw [ghost_factorize_supernodal_symbolic, if_pos hn] at hsym
      injection hsym with hsym
      subst hsym
      rw [supernodalWide, if_pos hn]
      exact ⟨rfl, Nat.zero_le _, rfl⟩
  · obtain ⟨hlen, h0⟩ := partition_sbDeg_facts A et cc relax
    obtain ⟨hsb, hcpr, hcpv, _, _, hrow, hvv, hw, hsblo, hcprlo, hcpvlo⟩ :=
      assemble_spec (supernodalPartition A et cc relax).2.2
        (supernodalPartition A et cc relax).2.1
        (supernodalPartition A et cc relax).1 hlen h0
        (supernodalPartition A et cc relax).1 (Nat.le_refl _)
    have hwide : (assemble (supernodalPartition A et cc relax).2.2
        (supernodalPartition A et cc relax).2.1
        (supernodalPartition A et cc relax).1).wide =
        supernodalWide A et cc relax := by
      rw [supernodalWide, if_neg hn]
      exact hw
    rw [ghost_factorize_supernodal_symbolic, if_neg hn]
    simp only [finishSupernodal]
    rw [← assemble] at hsb hcpr hcpv hrow hvv hw hsblo hcprlo hcpvlo
    split
    · rename_i hgt
      constructor
      · intro _; rfl
      · intro sym hsym; cases hsym
    · rename_i hgt
      rw [hwide] at hgt
      constructor
      · intro h; exact absurd h hgt
      · intro sym hsym
        injection hsym with hsym
        subst hsym
        simp only [SupSym.len_values, SupSym.n_supernodes, ghost_postorder_len]
        have hget : (List.set (assemble (supernodalPartition A et cc relax).2.2
            (supernodalPartition A et cc relax).2.1
            (supernodalPartition A et cc relax).1).cpv
            (supernodalPartition A et cc relax).1
            (assemble (supernodalPartition A et cc relax).2.2
              (supernodalPartition A et cc relax).2.1
              (supernodalPartition A et cc relax).1).valPtr).getD
            (supernodalPartition A et cc relax).1 0 =
            (assemble (supernodalPartition A et cc relax).2.2
              (supernodalPartition A et cc relax).2.1
              (supernodalPartition A et cc relax).1).valPtr :=
          getD_set_self _ _ _ _ (by rw [hcpv]; omega)
        rw [hget, hvv, hwide]
        refine ⟨rfl, by omega, ?_⟩
        rw [← hwide, hw]
        congr 1
        apply List.map_eq_map_iff.mpr
        intro s hs
        have hslt : s < (supernodalPartition A et cc relax).1 := List.mem_range.mp hs
        have hsb1 : (assemble (supernodalPartition A et cc relax).2.2
            (supernodalPartition A et cc relax).2.1
            (supernodalPartition A et cc relax).1).sb.getD (s+1) 0 =
            ((List.range (s+1)).map
              (fun u => (supernodalPartition A et cc relax).2.1.getD u 0)).sum :=
          hsblo (s+1) (by omega)
        have hsb0 : (assemble (supernodalPartition A et cc relax).2.2
            (supernodalPartition A et cc relax).2.1
            (supernodalPartition A et cc relax).1).sb.getD s 0 =
            ((List.range s).map
              (fun u => (supernodalPartition A et cc relax).2.1.getD u 0)).sum :=
          hsblo s (by omega)
        have hcprdiff : (List.set (assemble (supernodalPartition A et cc relax).2.2
              (supernodalPartition A et cc relax).2.1
              (supernodalPartition A et cc relax).1).cpr
              (supernodalPartition A et cc relax).1
              (assemble (supernodalPartition A et cc relax).2.2
                (supernodalPartition A et cc relax).2.1
                (supernodalPartition A et cc relax).1).rowPtr).getD (s+1) 0 -
            (List.set (assemble (supernodalPartition A et cc relax).2.2
              (supernodalPartition A et cc relax).2.1
              (supernodalPartition A et cc relax).1).cpr
              (supernodalPartition A et cc relax).1
              (assemble (supernodalPartition A et cc relax).2.2
                (supernodalPartition A et cc relax).2.1
                (supernodalPartition A et cc relax).1).rowPtr).getD s 0 =
            (supernodalPartition A et cc relax).2.2.getD (s+1) 0 := by
          have hlow : (List.set (assemble (supernodalPartition A et cc relax).2.2
              (supernodalPartition A et cc relax).2.1
              (supernodalPartition A et cc relax).1).cpr
              (supernodalPartition A et cc relax).1
              (assemble (supernodalPartition A et cc relax).2.2
                (supernodalPartition A et cc relax).2.1
                (supernodalPartition A et cc relax).1).rowPtr).getD s 0 =
              ((List.range s).map
                (fun u => (supernodalPartition A et cc relax).2.2.getD (u+1) 0)).sum := by
            rw [getD_set_ne _ _ _ (by omega)]
            exact hcprlo s hslt
          have hhigh : (List.set (assemble (supernodalPartition A et cc relax).2.2
              (supernodalPartition A et cc relax).2.1
              (supernodalPartition A et cc relax).1).cpr
              (supernodalPartition A et cc relax).1
              (assemble (supernodalPartition A et cc relax).2.2
                (supernodalPartition A et cc relax).2.1
                (supernodalPartition A et cc relax).1).rowPtr).getD (s+1) 0 =
              ((List.range (s+1)).map
                (fun u => (supernodalPartition A et cc relax).2.2.getD (u+1) 0)).sum := by
            rcases eq_or_ne (s+1) (supernodalPartition A et cc relax).1 with heq | hne
            · rw [heq, getD_set_self _ _ _ _ (by rw [hcpr]; omega), hrow]
            · rw [getD_set_ne _ _ _ (Ne.symm hne)]
              exact hcprlo (s+1) (by omega)
          rw [hlow, hhigh, range_map_sum_succ]
          omega
        rw [hsb1, hsb0, hcprdiff, range_map_sum_succ]
        have : ((List.range s).map
            (fun u => (supernodalPartition A et cc relax).2.1.getD u 0)).sum +
            (supernodalPartition A et cc relax).2.1.getD s 0 -
            ((List.range s).map
              (fun u => (supernodalPartition A et cc relax).2.1.getD u 0)).sum =
            (supernodalPartition A et cc relax).2.1.getD s 0 := by omega
        rw [this]
        ring

/-- Witness for C8: on the 11x11 fixture the total frontal size is 34, so
with IMAX = 10 the factorization reports IndexOverflow. -/
theorem supernodal_overflow_check_witness :
    ghost_factorize_supernodal_symbolic fixtureA (etreeOf fixtureA)
      (colCountsOf fixtureA) none 10 = .error .indexOverflow :=
  (supernodal_overflow_check fixtureA (etreeOf fixtureA)
    (colCountsOf fixtureA) none 10).1 (by decide)

/-! ### Lockstep between the prefactorization climbs and the ereach sweep -/

theorem EtreeLe.refl (s : List (Option Nat)) : EtreeLe s s := fun _ _ h => h

theorem EtreeLe.trans {s t u : List (Option Nat)}
    (h1 : EtreeLe s t) (h2 : EtreeLe t u) : EtreeLe s u :=
  fun m p h => h2 m p (h1 m p h)

theorem walkP_mono {j : Nat} :
    ∀ (fuel i : Nat) (st : PreState), EtreeLe st.etree (walkP j fuel i st).etree := by
  intro fuel
  induction fuel with
  | zero => intro i st; exact EtreeLe.refl _
  | succ fuel ih =>
    intro i st
    rw [walkP]
    split
    · exact EtreeLe.refl _
    · refine EtreeLe.trans ?_ (ih _ _)
      cases hE : st.etree.getD i none with
      | some p => simp only [hE]; exact EtreeLe.refl _
      | none =>
        simp only [hE]
        intro m q hm
        rcases eq_or_ne i m with rfl | hne
        · rw [hE] at hm; cases hm
        · rw [getD_set_ne _ _ _ hne]
          exact hm

theorem colFold_mono (j fl : Nat) :
    ∀ (l : List Nat) (st : PreState),
      EtreeLe st.etree
        ((l.foldl (fun st i => if i < j then walkP j fl i st else st) st)).etree := by
  intro l
  induction l with
  | nil => intro st; exact EtreeLe.refl _
  | cons a l ih =>
    intro st
    rw [List.foldl_cons]
    refine EtreeLe.trans ?_ (ih _)
    dsimp only
    split
    · exact walkP_mono _ _ _
    · exact EtreeLe.refl _

theorem colP_mono (A : Csc) (j : Nat) (st : PreState) :
    EtreeLe st.etree (colP A st j).etree := by
  unfold colP
  exact colFold_mono j A.n (A.col j) ⟨st.etree, st.cc.set j 1, st.vis.set j j⟩

theorem prefactUpTo_mono (A : Csc) :
    ∀ (d K : Nat), EtreeLe (prefactUpTo A K).etree (prefactUpTo A (K + d)).etree := by
  intro d
  induction d with
  | zero => intro K; exact EtreeLe.refl _
  | succ d ih =>
    intro K
    refine EtreeLe.trans (ih K) ?_
    have : K + (d + 1) = (K + d) + 1 := by omega
    rw [this]
    unfold prefactUpTo
    rw [foldl_range_succ]
    exact colP_mono A (K + d) _

theorem prefactUpTo_le_final (A : Csc) (K : Nat) (hK : K ≤ A.n) :
    EtreeLe (prefactUpTo A K).etree (etreeOf A) := by
  have h : A.n = K + (A.n - K) := by omega
  have := prefactUpTo_mono A (A.n - K) K
  rw [← h] at this
  exact this

theorem walk_lockstep {n j : Nat} (final : List (Option Nat)) (hj : j < n) :
    ∀ (fuel i : Nat) (st : PreState), PreWF n st →
      EtreeBnd st.etree (j+1) → st.vis.getD j 0 = j → i ≤ j →
      EtreeLe (walkP j fuel i st).etree final →
      ∃ seg, walkE final j fuel i st.vis = ((walkP j fuel i st).vis, seg) ∧
        (∀ m, (walkP j fuel i st).cc.getD m 0 = st.cc.getD m 0 + seg.count m) ∧
        (∀ x, x ∈ seg → x < j) := by
  intro fuel
  induction fuel with
  | zero =>
    intro i st _ _ _ _ _
    exact ⟨[], rfl, fun m => by simp [walkP], fun x hx => absurd hx (List.not_mem_nil x)⟩
  | succ fuel ih =>
    intro i st hwf hB hvisj hij hfin
    rw [walkP] at hfin ⊢
    rw [walkE]
    by_cases hvis : st.vis.getD i 0 = j
    · rw [if_pos hvis] at hfin ⊢
      rw [if_pos hvis]
      exact ⟨[], rfl, fun m => by simp, fun x hx => absurd hx (List.not_mem_nil x)⟩
      
    · rw [if_neg hvis] at hfin ⊢
      rw [if_neg hvis]
      have hne : i ≠ j := fun h => hvis (h ▸ hvisj)
      have hilt : i < j := Nat.lt_of_le_of_ne hij hne
      have hcclen : i < st.cc.length := by
        rw [hwf.2.1]; omega
      cases hE : st.etree.getD i none with
      | some p =>
        simp only [hE] at hfin ⊢
        have hpj : p ≤ j := by
          have := hB i p hE
          omega
        have hfinal_i : final.getD i none = some p := by
          apply hfin
          exact walkP_mono fuel p _ i p hE
        rw [hfinal_i]
        have hwf2 : PreWF n ⟨st.etree, st.cc.set i (st.cc.getD i 0 + 1), st.vis.set i j⟩ :=
          ⟨hwf.1, by simpa using hwf.2.1, by simpa using hwf.2.2⟩
        have hvisj2 : (st.vis.set i j).getD j 0 = j := by
          rw [getD_set_ne _ _ _ hne]; exact hvisj
        obtain ⟨seg, h1, h2, h3⟩ := ih p ⟨st.etree, _, _⟩ hwf2 hB hvisj2 hpj hfin
        refine ⟨i :: seg, ?_, ?_, ?_⟩
        · simp only [h1]
        · intro m
          rw [h2 m]
          rcases eq_or_ne i m with rfl | hmne
          · rw [getD_set_self _ _ _ _ hcclen, List.count_cons_self]
            omega
          · rw [getD_set_ne _ _ _ hmne, List.count_cons_of_ne (Ne.symm hmne)]
        · intro x hx
          rcases List.mem_cons.mp hx with rfl | hx
          · exact hilt
          · exact h3 x hx
      | none =>
        simp only [hE] at hfin ⊢
        have hetlen : i < st.etree.length := by rw [hwf.1]; omega
        have hset_i : (st.etree.set i (some j)).getD i none = some j :=
          getD_set_self _ _ _ _ hetlen
        have hfinal_i : final.getD i none = some j := by
          apply hfin
          exact walkP_mono fuel j _ i j hset_i
        rw [hfinal_i]
        have hB2 : EtreeBnd (st.etree.set i (some j)) (j+1) := by
          intro m q hm
          rcases eq_or_ne i m with rfl | hmne
          · rw [getD_set_self _ _ _ _ hetlen] at hm
            cases hm
            omega
          · rw [getD_set_ne _ _ _ hmne] at hm
            exact hB m q hm
        have hwf2 : PreWF n ⟨st.etree.set i (some j),
            st.cc.set i (st.cc.getD i 0 + 1), st.vis.set i j⟩ :=
          ⟨by simpa using hwf.1, by simpa using hwf.2.1, by simpa using hwf.2.2⟩
        have hvisj2 : (st.vis.set i j).getD j 0 = j := by
          rw [getD_set_ne _ _ _ hne]; exact hvisj
        obtain ⟨seg, h1, h2, h3⟩ := ih j ⟨st.etree.set i (some j), _, _⟩ hwf2 hB2
          hvisj2 (Nat.le_refl j) hfin
        refine ⟨i :: seg, ?_, ?_, ?_⟩
        · simp only [h1]
        · intro m
          rw [h2 m]
          rcases eq_or_ne i m with rfl | hmne
          · rw [getD_set_self _ _ _ _ hcclen, List.count_cons_self]
            omega
          · rw [getD_set_ne _ _ _ hmne, List.count_cons_of_ne (Ne.symm hmne)]
        · intro x hx
          rcases List.mem_cons.mp hx with rfl | hx
          · exact hilt
          · exact h3 x hx

theorem col_fold_lockstep {n j fl : Nat} (final : List (Option Nat)) (hj : j < n) :
    ∀ (l : List Nat) (ws : PreState) (acc : List Nat),
      PreWF n ws → EtreeBnd ws.etree (j+1) → ws.vis.getD j 0 = j →
      EtreeLe ((l.foldl (fun st i => if i < j then walkP j fl i st else st) ws)).etree
        final →
      (∀ x, x ∈ acc → x < j) →
      ∃ r, (l.foldl (fun (a : List Nat × List Nat) i =>
          if i < j then
            let w := walkE final j fl i a.1
            (w.1, w.2 ++ a.2)
          else a) (ws.vis, acc)) =
        (((l.foldl (fun st i => if i < j then walkP j fl i st else st) ws)).vis, r) ∧
        (∀ m, ((l.foldl (fun st i => if i < j then walkP j fl i st else st) ws)).cc.getD m 0
            + acc.count m = ws.cc.getD m 0 + r.count m) ∧
        (∀ x, x ∈ r → x < j) := by
  intro l
  induction l with
  | nil =>
    intro ws acc _ _ _ _ hacc
    exact ⟨acc, rfl, fun m => rfl, hacc⟩
  | cons a l ih =>
    intro ws acc hwf hB hvisj hfin hacc
    rw [List.foldl_cons] at hfin ⊢
    rw [List.foldl_cons]
    by_cases ha : a < j
    · simp only [if_pos ha] at hfin ⊢
      have hfinw : EtreeLe (walkP j fl a ws).etree final :=
        EtreeLe.trans (colFold_mono j fl l (walkP j fl a ws)) hfin
      obtain ⟨seg, hw1, hw2, hw3⟩ :=
        walk_lockstep final hj fl a ws hwf hB hvisj (Nat.le_of_lt ha) hfinw
      have hwf2 : PreWF n (walkP j fl a ws) := walkP_wf fl a ws hwf
      obtain ⟨hB2, hvisj2⟩ := walkP_bnd fl a ws hB hvisj (Nat.le_of_lt ha)
      have hacc2 : ∀ x, x ∈ seg ++ acc → x < j := by
        intro x hx
        rcases List.mem_append.mp hx with hx | hx
        · exact hw3 x hx
        · exact hacc x hx
      obtain ⟨r, h1, h2, h3⟩ := ih (walkP j fl a ws) (seg ++ acc) hwf2 hB2 hvisj2
        hfin hacc2
      refine ⟨r, ?_, ?_, h3⟩
      · rw [← h1]
        congr 1
        simp only [hw1]
      · intro m
        have := h2 m
        rw [List.count_append] at this
        have hseg := hw2 m
        omega
    · simp only [if_neg ha] at hfin ⊢
      exact ih ws acc hwf hB hvisj hfin hacc

theorem col_lockstep (A : Csc) {j : Nat} (final : List (Option Nat)) (st : PreState)
    (hwf : PreWF A.n st) (hj : j < A.n) (hB : EtreeBnd st.etree j)
    (hfin : EtreeLe (colP A st j).etree final) :
    ∃ r, ereachCol A final j st.vis = ((colP A st j).vis, r) ∧
      (∀ m, (colP A st j).cc.getD m 0 = (st.cc.set j 1).getD m 0 + r.count m) ∧
      (∀ x, x ∈ r → x < j) := by
  unfold colP at hfin ⊢
  unfold ereachCol
  have hwf2 : PreWF A.n ⟨st.etree, st.cc.set j 1, st.vis.set j j⟩ :=
    ⟨hwf.1, by simpa using hwf.2.1, by simpa using hwf.2.2⟩
  have hB2 : EtreeBnd st.etree (j+1) := by
    intro m p hm
    have := hB m p hm
    omega
  have hvisj2 : (st.vis.set j j).getD j 0 = j :=
    getD_set_self _ _ _ _ (by rw [hwf.2.2]; exact hj)
  obtain ⟨r, h1, h2, h3⟩ := col_fold_lockstep final hj (A.col j)
    ⟨st.etree, st.cc.set j 1, st.vis.set j j⟩ [] hwf2 hB2 hvisj2 hfin
    (fun x hx => absurd hx (List.not_mem_nil x))
  refine ⟨r, h1, ?_, h3⟩
  intro m
  have := h2 m
  simpa using this

theorem run_lockstep (A : Csc) :
    ∀ K, K ≤ A.n →
      simpVisUpTo A (etreeOf A) K = (prefactUpTo A K).vis ∧
      (∀ m, (prefactUpTo A K).cc.getD m 0 =
        (if m < K then 1 else 0) + reachCountBelow A (etreeOf A) K m) ∧
      (∀ k, k < K → ∀ x, x ∈ reachAt A (etreeOf A) k → x < k) := by
  intro K
  induction K with
  | zero =>
    intro _
    refine ⟨rfl, ?_, fun k hk => absurd hk (by omega)⟩
    intro m
    simp [prefactUpTo, reachCountBelow]
  | succ K ih =>
    intro hK
    have hKn : K < A.n := hK
    obtain ⟨ihv, ihc, ihr⟩ := ih (Nat.le_of_lt hKn)
    have hwf : PreWF A.n (prefactUpTo A K) := (prefactUpTo_inv A K (Nat.le_of_lt hKn)).1
    have hB : EtreeBnd (prefactUpTo A K).etree K :=
      (prefactUpTo_inv A K (Nat.le_of_lt hKn)).2
    have hfin : EtreeLe (colP A (prefactUpTo A K) K).etree (etreeOf A) := by
      have := prefactUpTo_le_final A (K+1) hK
      rw [prefactUpTo, foldl_range_succ] at this
      exact this
    obtain ⟨r, h1, h2, h3⟩ := col_lockstep A (etreeOf A) (prefactUpTo A K) hwf hKn hB hfin
    have hVisStep : simpVisUpTo A (etreeOf A) (K+1) =
        (ereachCol A (etreeOf A) K (prefactUpTo A K).vis).1 := by
      rw [simpVisUpTo, foldl_range_succ, ← simpVisUpTo, ihv]
    have hReach : reachAt A (etreeOf A) K = r := by
      rw [reachAt, ihv, h1]
    have hStep : prefactUpTo A (K+1) = colP A (prefactUpTo A K) K := by
      rw [prefactUpTo, foldl_range_succ]
      rfl
    refine ⟨?_, ?_, ?_⟩
    · rw [hVisStep, h1, hStep]
    · intro m
      rw [hStep, h2 m]
      have hRCB : reachCountBelow A (etreeOf A) (K+1) m =
          reachCountBelow A (etreeOf A) K m + (reachAt A (etreeOf A) K).count m := by
        rw [reachCountBelow, reachCountBelow, range_map_sum_succ]
      rw [hRCB, hReach]
      rcases eq_or_ne m K with rfl | hne
      · have hset : ((prefactUpTo A m).cc.set m 1).getD m 0 = 1 :=
          getD_set_self _ _ _ _ (by rw [hwf.2.1]; exact hKn)
        rw [hset]
        have hz1 : reachCountBelow A (etreeOf A) m m = 0 := by
          rw [reachCountBelow]
          apply List.sum_eq_zero
          intro x hx
          obtain ⟨k, hk, hkx⟩ := List.mem_map.mp hx
          have hkK : k < m := List.mem_range.mp hk
          rw [← hkx]
          exact List.count_eq_zero.mpr (fun hmem => by
            have := ihr k hkK m hmem
            omega)
        have hz2 : r.count m = 0 :=
          List.count_eq_zero.mpr (fun hmem => by
            have := h3 m hmem
            omega)
        rw [hz1, hz2]
        simp
      · have hset : ((prefactUpTo A K).cc.set K 1).getD m 0 =
            (prefactUpTo A K).cc.getD m 0 := getD_set_ne _ _ _ (Ne.symm hne)
        rw [hset, ihc m]
        have : (if m < K + 1 then 1 else 0) = (if m < K then 1 else 0) := by
          rcases Nat.lt_or_ge m K with h | h
          · simp [h, Nat.lt_succ_of_lt h]
          · have h1 : ¬ m < K := by omega
            have h2 : ¬ m < K + 1 := by omega
            simp [h1, h2]
        omega
    · intro k hk x hx
      rcases Nat.lt_or_ge k K with hlt | hge
      · exact ihr k hlt x hx
      · have hkK : k = K := by omega
        subst hkK
        rw [hReach] at hx
        exact h3 x hx

/-! ### Prefix sums and position bookkeeping of the simplicial fill -/

theorem getD_take {α : Type} (l : List α) (n m : Nat) (h : m < n) (d : α) :
    (l.take n).getD m d = l.getD m d := by
  rw [List.getD_eq_getD_get?, List.getD_eq_getD_get?]
  congr 1
  exact List.get?_take h

theorem range_map_sum_le (f : Nat → Nat) :
    ∀ (d a : Nat), ((List.range a).map f).sum ≤ ((List.range (a + d)).map f).sum := by
  intro d
  induction d with
  | zero => intro a; exact Nat.le_refl _
  | succ d ih =>
    intro a
    have : a + (d + 1) = (a + d) + 1 := by omega
    rw [this, range_map_sum_succ]
    exact Nat.le_trans (ih a) (Nat.le_add_right _ _)

theorem range_map_sum_mono (f : Nat → Nat) (a b : Nat) (hab : a ≤ b) :
    ((List.range a).map f).sum ≤ ((List.range b).map f).sum := by
  obtain ⟨d, rfl⟩ := Nat.exists_eq_add_of_le hab
  exact range_map_sum_le f d a

theorem chain_lt_of_succ (g : Nat → Nat) (n : Nat)
    (h : ∀ j, j < n → g j < g (j+1)) :
    ∀ a b, a < b → b ≤ n → g a < g b := by
  intro a b
  induction b with
  | zero => intro hab _; omega
  | succ b ih =>
    intro hab hbn
    rcases Nat.lt_or_ge a b with hab2 | hab2
    · exact Nat.lt_trans (ih hab2 (by omega)) (h b (by omega))
    · have : a = b := by omega
      subst this
      exact h a (by omega)

theorem prefixSums_spec (cc : List Nat) (n : Nat) :
    (prefixSums cc n).length = n + 1 ∧
    (∀ t, t ≤ n → (prefixSums cc n).getD t 0 =
      ((List.range t).map (fun u => cc.getD u 0)).sum) := by
  unfold prefixSums
  suffices h : ∀ K, K ≤ n →
      ((List.range K).foldl (fun l j => l.set (j+1) (l.getD j 0 + cc.getD j 0))
        (List.replicate (n+1) 0)).length = n + 1 ∧
      (∀ t, t ≤ K → ((List.range K).foldl
          (fun l j => l.set (j+1) (l.getD j 0 + cc.getD j 0))
          (List.replicate (n+1) 0)).getD t 0 =
        ((List.range t).map (fun u => cc.getD u 0)).sum) ∧
      (∀ t, K < t → ((List.range K).foldl
          (fun l j => l.set (j+1) (l.getD j 0 + cc.getD j 0))
          (List.replicate (n+1) 0)).getD t 0 = 0) by
    obtain ⟨h1, h2, _⟩ := h n (Nat.le_refl _)
    exact ⟨h1, h2⟩
  intro K
  induction K with
  | zero =>
    intro _
    refine ⟨by simp, ?_, ?_⟩
    · intro t ht
      interval_cases t
      simp
    · intro t _
      rw [List.range_zero, List.foldl_nil]
      rcases Nat.lt_or_ge t (n+1) with h | h
      · rw [getD_replicate _ _ h]
      · rw [List.getD_eq_default _ _ (by simpa using h)]
  | succ K ih =>
    intro hK
    have hKn : K < n := hK
    obtain ⟨ih1, ih2, ih3⟩ := ih (Nat.le_of_lt hKn)
    rw [foldl_range_succ]
    generalize hl : (List.range K).foldl
      (fun l j => l.set (j+1) (l.getD j 0 + cc.getD j 0))
      (List.replicate (n+1) 0) = l at ih1 ih2 ih3
    refine ⟨by simpa using ih1, ?_, ?_⟩
    · intro t ht
      rcases eq_or_ne t (K+1) with rfl | hne
      · rw [getD_set_self _ _ _ _ (by omega), ih2 K (Nat.le_refl _),
          range_map_sum_succ]
      · rw [getD_set_ne _ _ _ (Ne.symm hne)]
        exact ih2 t (by omega)
    · intro t ht
      rw [getD_set_ne _ _ _ (by omega)]
      exact ih3 t (by omega)

theorem fill_fold_inv {n K : Nat} (Lp : List Nat) (reach : List Nat)
    (W WK : Nat → Nat) (hKn : K ≤ n)
    (hreach : ∀ x, x ∈ reach → x < K)
    (hWle : ∀ j, WK j + reach.count j ≤ W j)
    (hLpsucc : ∀ j, j < n → Lp.getD (j+1) 0 = Lp.getD j 0 + 1 + W j) :
    ∀ (l pre : List Nat) (cur Lr : List Nat),
      reach = pre ++ l →
      cur.length = n →
      (∀ m, m < n → cur.getD m 0 = Lp.getD m 0 + WK m + pre.count m) →
      ((l.foldl (fun (cl : List Nat × List Nat) j =>
          (cl.1.set j (cl.1.getD j 0 + 1), cl.2.set (cl.1.getD j 0 + 1) K))
          (cur, Lr)).1.length = n) ∧
      ((l.foldl (fun (cl : List Nat × List Nat) j =>
          (cl.1.set j (cl.1.getD j 0 + 1), cl.2.set (cl.1.getD j 0 + 1) K))
          (cur, Lr)).2.length = Lr.length) ∧
      (∀ m, m < n → (l.foldl (fun (cl : List Nat × List Nat) j =>
          (cl.1.set j (cl.1.getD j 0 + 1), cl.2.set (cl.1.getD j 0 + 1) K))
          (cur, Lr)).1.getD m 0 = Lp.getD m 0 + WK m + reach.count m) ∧
      (∀ q, q ≤ n → (l.foldl (fun (cl : List Nat × List Nat) j =>
          (cl.1.set j (cl.1.getD j 0 + 1), cl.2.set (cl.1.getD j 0 + 1) K))
          (cur, Lr)).2.getD (Lp.getD q 0) 0 = Lr.getD (Lp.getD q 0) 0) := by
  have hg : ∀ t, t < n → Lp.getD t 0 < Lp.getD (t+1) 0 := by
    intro t ht
    rw [hLpsucc t ht]
    omega
  have hmono := chain_lt_of_succ (fun t => Lp.getD t 0) n hg
  intro l
  induction l with
  | nil =>
    intro pre cur Lr hsplit hcurlen hcur
    rw [List.append_nil] at hsplit
    subst hsplit
    exact ⟨hcurlen, rfl, hcur, fun q _ => rfl⟩
  | cons j l ih =>
    intro pre cur Lr hsplit hcurlen hcur
    have hjreach : j ∈ reach := by
      rw [hsplit]
      exact List.mem_append_right _ (List.mem_cons_self j l)
    have hjK : j < K := hreach j hjreach
    have hjn : j < n := by omega
    have hcntj : reach.count j = pre.count j + (l.count j + 1) := by
      rw [hsplit, List.count_append, List.count_cons_self]
    have hrow : cur.getD j 0 + 1 = Lp.getD j 0 + WK j + pre.count j + 1 := by
      rw [hcur j hjn]
    have hhi : cur.getD j 0 + 1 ≤ Lp.getD j 0 + W j := by
      have := hWle j
      omega
    have hlo : Lp.getD j 0 < cur.getD j 0 + 1 := by omega
    have havoid : ∀ q, q ≤ n → cur.getD j 0 + 1 ≠ Lp.getD q 0 := by
      intro q hq
      rcases Nat.lt_or_ge q (j+1) with hlt | hge
      · have : Lp.getD q 0 ≤ Lp.getD j 0 := by
          rcases eq_or_ne q j with rfl | hne
          · exact Nat.le_refl _
          · exact Nat.le_of_lt (hmono q j (by omega) (by omega))
        omega
      · have : Lp.getD (j+1) 0 ≤ Lp.getD q 0 := by
          rcases eq_or_ne q (j+1) with rfl | hne
          · exact Nat.le_refl _
          · exact Nat.le_of_lt (hmono (j+1) q (by omega) hq)
        have hsucc := hLpsucc j hjn
        omega
    rw [List.foldl_cons]
    have hsplit2 : reach = (pre ++ [j]) ++ l := by
      rw [hsplit]
      simp
    have hcurlen2 : (cur.set j (cur.getD j 0 + 1)).length = n := by
      simpa using hcurlen
    have hcur2 : ∀ m, m < n → (cur.set j (cur.getD j 0 + 1)).getD m 0 =
        Lp.getD m 0 + WK m + (pre ++ [j]).count m := by
      intro m hm
      rcases eq_or_ne j m with rfl | hne
      · rw [getD_set_self _ _ _ _ (by omega), List.count_append,
          List.count_cons_self, List.count_nil, hcur j hjn]
        omega
      · rw [getD_set_ne _ _ _ hne, List.count_append, List.count_cons_of_ne
          (Ne.symm hne), List.count_nil, hcur m hm]
        omega
    obtain ⟨h1, h2, h3, h4⟩ := ih (pre ++ [j]) (cur.set j (cur.getD j 0 + 1))
      (Lr.set (cur.getD j 0 + 1) K) hsplit2 hcurlen2 hcur2
    refine ⟨h1, by simpa using h2, h3, ?_⟩
    intro q hq
    rw [h4 q hq, getD_set_ne _ _ _ (havoid q hq)]

theorem colCounts_formula (A : Csc) :
    ∀ m, m < A.n → (colCountsOf A).getD m 0 =
      1 + reachCountBelow A (etreeOf A) A.n m := by
  intro m hm
  have := (run_lockstep A A.n (Nat.le_refl _)).2.1 m
  rw [if_pos hm] at this
  exact this

theorem Lp_succ_formula (A : Csc) :
    ∀ j, j < A.n → (prefixSums (colCountsOf A) A.n).getD (j+1) 0 =
      (prefixSums (colCountsOf A) A.n).getD j 0 + 1 +
        reachCountBelow A (etreeOf A) A.n j := by
  intro j hj
  obtain ⟨_, hsums⟩ := prefixSums_spec (colCountsOf A) A.n
  rw [hsums (j+1) (by omega), hsums j (by omega), range_map_sum_succ,
    colCounts_formula A j hj]
  omega

theorem simpFill_inv (A : Csc) :
    ∀ K, K ≤ A.n →
      ((simpFillUpTo A (etreeOf A) (prefixSums (colCountsOf A) A.n) K).2.2 =
        simpVisUpTo A (etreeOf A) K) ∧
      ((simpFillUpTo A (etreeOf A) (prefixSums (colCountsOf A) A.n) K).1.length = A.n) ∧
      (∀ m, m < A.n →
        (simpFillUpTo A (etreeOf A) (prefixSums (colCountsOf A) A.n) K).1.getD m 0 =
          (prefixSums (colCountsOf A) A.n).getD m 0 +
            reachCountBelow A (etreeOf A) K m) ∧
      ((simpFillUpTo A (etreeOf A) (prefixSums (colCountsOf A) A.n) K).2.1.length =
        (prefixSums (colCountsOf A) A.n).getD A.n 0) ∧
      (∀ j, j < K →
        (simpFillUpTo A (etreeOf A) (prefixSums (colCountsOf A) A.n) K).2.1.getD
          ((prefixSums (colCountsOf A) A.n).getD j 0) 0 = j) := by
  intro K
  induction K with
  | zero =>
    intro _
    refine ⟨rfl, ?_, ?_, by simp [simpFillUpTo], fun j hj => absurd hj (by omega)⟩
    · rw [simpFillUpTo, List.range_zero, List.foldl_nil]
      simp only
      rw [List.length_take, (prefixSums_spec (colCountsOf A) A.n).1]
      omega
    · intro m hm
      rw [simpFillUpTo, List.range_zero, List.foldl_nil]
      simp only
      rw [getD_take _ _ _ hm, reachCountBelow, List.range_zero, List.map_nil,
        List.sum_nil]
      omega
  | succ K ih =>
    intro hK
    have hKn : K < A.n := hK
    obtain ⟨ihv, ihcl, ihc, ihll, ihd⟩ := ih (Nat.le_of_lt hKn)
    have hstep : simpFillUpTo A (etreeOf A) (prefixSums (colCountsOf A) A.n) (K+1) =
        simpColStep A (etreeOf A) (prefixSums (colCountsOf A) A.n)
          (simpFillUpTo A (etreeOf A) (prefixSums (colCountsOf A) A.n) K) K := by
      rw [simpFillUpTo, foldl_range_succ]
      rfl
    have hVisStep : simpVisUpTo A (etreeOf A) (K+1) =
        (ereachCol A (etreeOf A) K (simpVisUpTo A (etreeOf A) K)).1 := by
      rw [simpVisUpTo, foldl_range_succ]
      rfl
    have hfacts := fill_fold_inv (n := A.n) (K := K)
      (prefixSums (colCountsOf A) A.n) (reachAt A (etreeOf A) K)
      (fun j => reachCountBelow A (etreeOf A) A.n j)
      (fun j => reachCountBelow A (etreeOf A) K j)
      (Nat.le_of_lt hKn)
      (fun x hx => (run_lockstep A A.n (Nat.le_refl _)).2.2 K hKn x hx)
      (fun j => by
        have hstep2 : reachCountBelow A (etreeOf A) K j +
            (reachAt A (etreeOf A) K).count j =
            reachCountBelow A (etreeOf A) (K+1) j := by
          rw [reachCountBelow, reachCountBelow, range_map_sum_succ]
        rw [hstep2]
        unfold reachCountBelow
        exact range_map_sum_mono _ _ _ (by omega))
      (fun j hj => Lp_succ_formula A j hj)
      (reachAt A (etreeOf A) K) []
      (simpFillUpTo A (etreeOf A) (prefixSums (colCountsOf A) A.n) K).1
      (simpFillUpTo A (etreeOf A) (prefixSums (colCountsOf A) A.n) K).2.1
      (by simp) ihcl
      (fun m hm => by rw [ihc m hm]; simp)
    obtain ⟨hf1, hf2, hf3, hf4⟩ := hfacts
    rw [hstep]
    unfold simpColStep
    rw [ihv]
    simp only
    rw [show (ereachCol A (etreeOf A) K (simpVisUpTo A (etreeOf A) K)).2 =
      reachAt A (etreeOf A) K from rfl]
    have hLpK_lt : (prefixSums (colCountsOf A) A.n).getD K 0 <
        (prefixSums (colCountsOf A) A.n).getD A.n 0 := by
      have hg : ∀ t, t < A.n → (prefixSums (colCountsOf A) A.n).getD t 0 <
          (prefixSums (colCountsOf A) A.n).getD (t+1) 0 := by
        intro t ht
        rw [Lp_succ_formula A t ht]
        omega
      exact chain_lt_of_succ _ A.n hg K A.n hKn (Nat.le_refl _)
    refine ⟨?_, ?_, ?_, ?_, ?_⟩
    · exact hVisStep.symm
    · exact hf1
    · intro m hm
      rw [hf3 m hm]
      unfold reachCountBelow
      rw [range_map_sum_succ]
      dsimp only
      omega
    · rw [List.length_set]
      exact hf2.trans ihll
    · intro j hj
      rcases eq_or_ne j K with rfl | hne
      · exact getD_set_self _ _ _ _ (by rw [hf2, ihll]; exact hLpK_lt)
      · have hjK : j < K := by omega
        have hLpne : (prefixSums (colCountsOf A) A.n).getD K 0 ≠
            (prefixSums (colCountsOf A) A.n).getD j 0 := by
          have hg : ∀ t, t < A.n → (prefixSums (colCountsOf A) A.n).getD t 0 <
              (prefixSums (colCountsOf A) A.n).getD (t+1) 0 := by
            intro t ht
            rw [Lp_succ_formula A t ht]
            omega
          have := chain_lt_of_succ _ A.n hg j K hjK (Nat.le_of_lt hKn)
          omega
        rw [getD_set_ne _ _ _ hLpne, hf4 j (by omega)]
        exact ihd j hjK

/-- C5: in the simplicial symbolic factor, column j of L spans exactly
col_counts[j] = L_col_ptr[j+1] - L_col_ptr[j] row index slots, and the first
entry of column j is the diagonal index j. Proved for every input matrix,
with etree and col_counts produced by ghost_prefactorize_symbolic on it. -/
theorem simplicial_symbolic_exact (A : Csc) (j : Nat) (hj : j < A.n) :
    (ghost_factorize_simplicial_symbolic A (etreeOf A) (colCountsOf A)).col_ptrs.getD
        (j+1) 0 -
      (ghost_factorize_simplicial_symbolic A (etreeOf A) (colCountsOf A)).col_ptrs.getD
        j 0 = (colCountsOf A).getD j 0 ∧
    (ghost_factorize_simplicial_symbolic A (etreeOf A) (colCountsOf A)).row_indices.getD
      ((ghost_factorize_simplicial_symbolic A (etreeOf A) (colCountsOf A)).col_ptrs.getD
        j 0) 0 = j := by
  unfold ghost_factorize_simplicial_symbolic
  simp only
  constructor
  · obtain ⟨_, hsums⟩ := prefixSums_spec (colCountsOf A) A.n
    rw [hsums (j+1) (by omega), hsums j (by omega), range_map_sum_succ]
    omega
  · exact (simpFill_inv A A.n (Nat.le_refl _)).2.2.2.2 j hj

/-- Witness for C5 at the concrete fixture, column 0. -/
theorem simplicial_symbolic_exact_witness :
    (ghost_factorize_simplicial_symbolic fixtureA (etreeOf fixtureA)
        (colCountsOf fixtureA)).col_ptrs.getD 1 0 -
      (ghost_factorize_simplicial_symbolic fixtureA (etreeOf fixtureA)
        (colCountsOf fixtureA)).col_ptrs.getD 0 0 =
      (colCountsOf fixtureA).getD 0 0 ∧
    (ghost_factorize_simplicial_symbolic fixtureA (etreeOf fixtureA)
        (colCountsOf fixtureA)).row_indices.getD
      ((ghost_factorize_simplicial_symbolic fixtureA (etreeOf fixtureA)
        (colCountsOf fixtureA)).col_ptrs.getD 0 0) 0 = 0 :=
  simplicial_symbolic_exact fixtureA 0 (by decide)

/-! ### Diagonal realness of the simplicial numeric kernel -/

theorem num_fold_inv {n K : Nat} (Lp Lr : List Nat) (reach : List Nat)
    (W WK : Nat → Nat) (hKn : K ≤ n)
    (hreach : ∀ y, y ∈ reach → y < K)
    (hWle : ∀ j, WK j + reach.count j ≤ W j)
    (hLpsucc : ∀ j, j < n → Lp.getD (j+1) 0 = Lp.getD j 0 + 1 + W j) :
    ∀ (l pre : List Nat) (x0 : List CQ) (cur : List Nat) (Lv : List CQ) (d0 : ℚ),
      reach = pre ++ l →
      cur.length = n →
      (∀ m, m < n → cur.getD m 0 = Lp.getD m 0 + WK m + pre.count m) →
      ((l.foldl (fun (s : List CQ × List Nat × List CQ × ℚ) j =>
          let j_start := Lp.getD j 0
          let row_idx := s.2.1.getD j 0 + 1
          let cur := s.2.1.set j row_idx
          let xj := s.1.getD j CQ.zero
          let x := s.1.set j CQ.zero
          let dj := (s.2.2.1.getD j_start CQ.zero).re
          let lkj := xj.scaleReal dj⁻¹
          let x := (List.range' (j_start+1) (row_idx - (j_start+1))).foldl
            (fun x p =>
              x.set (Lr.getD p 0)
                ((x.getD (Lr.getD p 0) CQ.zero).sub
                  ((s.2.2.1.getD p CQ.zero).conj.mul xj))) x
          let d := s.2.2.2 - (lkj.mul xj.conj).re
          let Lv := s.2.2.1.set row_idx lkj
          (x, cur, Lv, d)) (x0, cur, Lv, d0)).2.1.length = n) ∧
      (∀ m, m < n → (l.foldl (fun (s : List CQ × List Nat × List CQ × ℚ) j =>
          let j_start := Lp.getD j 0
          let row_idx := s.2.1.getD j 0 + 1
          let cur := s.2.1.set j row_idx
          let xj := s.1.getD j CQ.zero
          let x := s.1.set j CQ.zero
          let dj := (s.2.2.1.getD j_start CQ.zero).re
          let lkj := xj.scaleReal dj⁻¹
          let x := (List.range' (j_start+1) (row_idx - (j_start+1))).foldl
            (fun x p =>
              x.set (Lr.getD p 0)
                ((x.getD (Lr.getD p 0) CQ.zero).sub
                  ((s.2.2.1.getD p CQ.zero).conj.mul xj))) x
          let d := s.2.2.2 - (lkj.mul xj.conj).re
          let Lv := s.2.2.1.set row_idx lkj
          (x, cur, Lv, d)) (x0, cur, Lv, d0)).2.1.getD m 0 =
        Lp.getD m 0 + WK m + reach.count m) ∧
      ((l.foldl (fun (s : List CQ × List Nat × List CQ × ℚ) j =>
          let j_start := Lp.getD j 0
          let row_idx := s.2.1.getD j 0 + 1
          let cur := s.2.1.set j row_idx
          let xj := s.1.getD j CQ.zero
          let x := s.1.set j CQ.zero
          let dj := (s.2.2.1.getD j_start CQ.zero).re
          let lkj := xj.scaleReal dj⁻¹
          let x := (List.range' (j_start+1) (row_idx - (j_start+1))).foldl
            (fun x p =>
              x.set (Lr.getD p 0)
                ((x.getD (Lr.getD p 0) CQ.zero).sub
                  ((s.2.2.1.getD p CQ.zero).conj.mul xj))) x
          let d := s.2.2.2 - (lkj.mul xj.conj).re
          let Lv := s.2.2.1.set row_idx lkj
          (x, cur, Lv, d)) (x0, cur, Lv, d0)).2.2.1.length = Lv.length) ∧
      (∀ q, q ≤ n → (l.foldl (fun (s : List CQ × List Nat × List CQ × ℚ) j =>
          let j_start := Lp.getD j 0
          let row_idx := s.2.1.getD j 0 + 1
          let cur := s.2.1.set j row_idx
          let xj := s.1.getD j CQ.zero
          let x := s.1.set j CQ.zero
          let dj := (s.2.2.1.getD j_start CQ.zero).re
          let lkj := xj.scaleReal dj⁻¹
          let x := (List.range' (j_start+1) (row_idx - (j_start+1))).foldl
            (fun x p =>
              x.set (Lr.getD p 0)
                ((x.getD (Lr.getD p 0) CQ.zero).sub
                  ((s.2.2.1.getD p CQ.zero).conj.mul xj))) x
          let d := s.2.2.2 - (lkj.mul xj.conj).re
          let Lv := s.2.2.1.set row_idx lkj
          (x, cur, Lv, d)) (x0, cur, Lv, d0)).2.2.1.getD (Lp.getD q 0) CQ.zero =
        Lv.getD (Lp.getD q 0) CQ.zero) := by
  have hg : ∀ t, t < n → Lp.getD t 0 < Lp.getD (t+1) 0 := by
    intro t ht
    rw [hLpsucc t ht]
    omega
  have hmono := chain_lt_of_succ (fun t => Lp.getD t 0) n hg
  intro l
  induction l with
  | nil =>
    intro pre x0 cur Lv d0 hsplit hcurlen hcur
    rw [List.append_nil] at hsplit
    subst hsplit
    exact ⟨hcurlen, hcur, rfl, fun q _ => rfl⟩
  | cons j l ih =>
    intro pre x0 cur Lv d0 hsplit hcurlen hcur
    have hjreach : j ∈ reach := by
      rw [hsplit]
      exact List.mem_append_right _ (List.mem_cons_self j l)
    have hjK : j < K := hreach j hjreach
    have hjn : j < n := by omega
    have hcntj : reach.count j = pre.count j + (l.count j + 1) := by
      rw [hsplit, List.count_append, List.count_cons_self]
    have hhi : cur.getD j 0 + 1 ≤ Lp.getD j 0 + W j := by
      have h1 := hcur j hjn
      have h2 := hWle j
      omega
    have hlo : Lp.getD j 0 < cur.getD j 0 + 1 := by
      have h1 := hcur j hjn
      omega
    have havoid : ∀ q, q ≤ n → cur.getD j 0 + 1 ≠ Lp.getD q 0 := by
      intro q hq
      rcases Nat.lt_or_ge q (j+1) with hlt | hge
      · have : Lp.getD q 0 ≤ Lp.getD j 0 := by
          rcases eq_or_ne q j with rfl | hne
          · exact Nat.le_refl _
          · exact Nat.le_of_lt (hmono q j (by omega) (by omega))
        omega
      · have : Lp.getD (j+1) 0 ≤ Lp.getD q 0 := by
          rcases eq_or_ne q (j+1) with rfl | hne
          · exact Nat.le_refl _
          · exact Nat.le_of_lt (hmono (j+1) q (by omega) hq)
        have hsucc := hLpsucc j hjn
        omega
    rw [List.foldl_cons]
    have hsplit2 : reach = (pre ++ [j]) ++ l := by
      rw [hsplit]
      simp
    have hcurlen2 : (cur.set j (cur.getD j 0 + 1)).length = n := by
      simpa using hcurlen
    have hcur2 : ∀ m, m < n → (cur.set j (cur.getD j 0 + 1)).getD m 0 =
        Lp.getD m 0 + WK m + (pre ++ [j]).count m := by
      intro m hm
      rcases eq_or_ne j m with rfl | hne
      · rw [getD_set_self _ _ _ _ (by omega), List.count_append,
          List.count_cons_self, List.count_nil, hcur j hjn]
        omega
      · rw [getD_set_ne _ _ _ hne, List.count_append, List.count_cons_of_ne
          (Ne.symm hne), List.count_nil, hcur m hm]
        omega
    obtain ⟨h1, h2, h3, h4⟩ := ih (pre ++ [j]) _ (cur.set j (cur.getD j 0 + 1))
      (Lv.set (cur.getD j 0 + 1)
        ((x0.getD j CQ.zero).scaleReal ((Lv.getD (Lp.getD j 0) CQ.zero).re)⁻¹)) _
      hsplit2 hcurlen2 hcur2
    refine ⟨h1, h2, by simpa using h3, ?_⟩
    intro q hq
    rw [h4 q hq, getD_set_ne _ _ _ (havoid q hq)]

theorem numFill_inv (A : CscQ) :
    ∀ K, K ≤ A.n →
      ((numFillUpTo A (ghost_factorize_simplicial_symbolic A.pattern
          (etreeOf A.pattern) (colCountsOf A.pattern)) K).2.2.2 =
        simpVisUpTo A.pattern (etreeOf A.pattern) K) ∧
      ((numFillUpTo A (ghost_factorize_simplicial_symbolic A.pattern
          (etreeOf A.pattern) (colCountsOf A.pattern)) K).2.1.length = A.n) ∧
      (∀ m, m < A.n →
        (numFillUpTo A (ghost_factorize_simplicial_symbolic A.pattern
          (etreeOf A.pattern) (colCountsOf A.pattern)) K).2.1.getD m 0 =
          (prefixSums (colCountsOf A.pattern) A.pattern.n).getD m 0 +
            reachCountBelow A.pattern (etreeOf A.pattern) K m) ∧
      ((numFillUpTo A (ghost_factorize_simplicial_symbolic A.pattern
          (etreeOf A.pattern) (colCountsOf A.pattern)) K).2.2.1.length =
        (prefixSums (colCountsOf A.pattern) A.pattern.n).getD A.pattern.n 0) ∧
      (∀ j, j < K →
        ((numFillUpTo A (ghost_factorize_simplicial_symbolic A.pattern
          (etreeOf A.pattern) (colCountsOf A.pattern)) K).2.2.1.getD
          ((prefixSums (colCountsOf A.pattern) A.pattern.n).getD j 0) CQ.zero).im = 0) := by
  intro K
  induction K with
  | zero =>
    intro _
    refine ⟨rfl, ?_, ?_, ?_, fun j hj => absurd hj (by omega)⟩
    · rw [numFillUpTo, List.range_zero, List.foldl_nil]
      simp only
      rw [List.length_take]
      have := (prefixSums_spec (colCountsOf A.pattern) A.pattern.n).1
      rw [show (ghost_factorize_simplicial_symbolic A.pattern
          (etreeOf A.pattern) (colCountsOf A.pattern)).col_ptrs =
        prefixSums (colCountsOf A.pattern) A.pattern.n from rfl, this]
      rw [show A.pattern.n = A.n from rfl]
      omega
    · intro m hm
      rw [numFillUpTo, List.range_zero, List.foldl_nil]
      simp only
      rw [show (ghost_factorize_simplicial_symbolic A.pattern
          (etreeOf A.pattern) (colCountsOf A.pattern)).col_ptrs =
        prefixSums (colCountsOf A.pattern) A.pattern.n from rfl]
      rw [getD_take _ _ _ hm, reachCountBelow, List.range_zero, List.map_nil,
        List.sum_nil]
      omega
    · rw [numFillUpTo, List.range_zero, List.foldl_nil]
      simp only
      rw [List.length_replicate]
      rfl
  | succ K ih =>
    intro hK
    have hKn : K < A.n := hK
    obtain ⟨ihv, ihcl, ihc, ihll, ihd⟩ := ih (Nat.le_of_lt hKn)
    have hstep : numFillUpTo A (ghost_factorize_simplicial_symbolic A.pattern
        (etreeOf A.pattern) (colCountsOf A.pattern)) (K+1) =
        numColStep A (etreeOf A.pattern)
          (prefixSums (colCountsOf A.pattern) A.pattern.n)
          (ghost_factorize_simplicial_symbolic A.pattern (etreeOf A.pattern)
            (colCountsOf A.pattern)).row_indices
          (numFillUpTo A (ghost_factorize_simplicial_symbolic A.pattern
            (etreeOf A.pattern) (colCountsOf A.pattern)) K) K := by
      rw [numFillUpTo, foldl_range_succ]
      rfl
    have hVisStep : simpVisUpTo A.pattern (etreeOf A.pattern) (K+1) =
        (ereachCol A.pattern (etreeOf A.pattern) K
          (simpVisUpTo A.pattern (etreeOf A.pattern) K)).1 := by
      rw [simpVisUpTo, foldl_range_succ]
      rfl
    have hfacts := num_fold_inv (n := A.n) (K := K)
      (prefixSums (colCountsOf A.pattern) A.pattern.n)
      (ghost_factorize_simplicial_symbolic A.pattern (etreeOf A.pattern)
        (colCountsOf A.pattern)).row_indices
      (reachAt A.pattern (etreeOf A.pattern) K)
      (fun j => reachCountBelow A.pattern (etreeOf A.pattern) A.pattern.n j)
      (fun j => reachCountBelow A.pattern (etreeOf A.pattern) K j)
      (Nat.le_of_lt hKn)
      (fun y hy => (run_lockstep A.pattern A.pattern.n (Nat.le_refl _)).2.2 K hKn y hy)
      (fun j => by
        have hstep2 : reachCountBelow A.pattern (etreeOf A.pattern) K j +
            (reachAt A.pattern (etreeOf A.pattern) K).count j =
            reachCountBelow A.pattern (etreeOf A.pattern) (K+1) j := by
          rw [reachCountBelow, reachCountBelow, range_map_sum_succ]
        rw [hstep2]
        unfold reachCountBelow
        exact range_map_sum_mono _ _ _
          (by have h : A.pattern.n = A.n := rfl; omega))
      (fun j hj => Lp_succ_formula A.pattern j hj)
      (reachAt A.pattern (etreeOf A.pattern) K) []
      ((A.colEntries K).foldl (fun x e => x.set e.1 e.2.conj)
        (numFillUpTo A (ghost_factorize_simplicial_symbolic A.pattern
          (etreeOf A.pattern) (colCountsOf A.pattern)) K).1
        |>.set K CQ.zero)
      (numFillUpTo A (ghost_factorize_simplicial_symbolic A.pattern
        (etreeOf A.pattern) (colCountsOf A.pattern)) K).2.1
      (numFillUpTo A (ghost_factorize_simplicial_symbolic A.pattern
        (etreeOf A.pattern) (colCountsOf A.pattern)) K).2.2.1
      ((((A.colEntries K).foldl (fun x e => x.set e.1 e.2.conj)
        (numFillUpTo A (ghost_factorize_simplicial_symbolic A.pattern
          (etreeOf A.pattern) (colCountsOf A.pattern)) K).1).getD K CQ.zero).re)
      (by simp) ihcl
      (fun m hm => by rw [ihc m hm]; simp)
    obtain ⟨hf1, hf2, hf3, hf4⟩ := hfacts
    rw [hstep]
    unfold numColStep
    rw [ihv]
    simp only
    rw [show (ereachCol A.pattern (etreeOf A.pattern) K
      (simpVisUpTo A.pattern (etreeOf A.pattern) K)).2 =
      reachAt A.pattern (etreeOf A.pattern) K from rfl]
    have hLpK_lt : (prefixSums (colCountsOf A.pattern) A.pattern.n).getD K 0 <
        (prefixSums (colCountsOf A.pattern) A.pattern.n).getD A.pattern.n 0 := by
      have hg : ∀ t, t < A.pattern.n →
          (prefixSums (colCountsOf A.pattern) A.pattern.n).getD t 0 <
          (prefixSums (colCountsOf A.pattern) A.pattern.n).getD (t+1) 0 := by
        intro t ht
        rw [Lp_succ_formula A.pattern t ht]
        omega
      exact chain_lt_of_succ _ A.pattern.n hg K A.pattern.n hKn (Nat.le_refl _)
    refine ⟨?_, ?_, ?_, ?_, ?_⟩
    · exact hVisStep.symm
    · exact hf1
    · intro m hm
      rw [hf2 m hm]
      unfold reachCountBelow
      rw [range_map_sum_succ]
      dsimp only
      omega
    · rw [List.length_set]
      exact hf3.trans ihll
    · intro j hj
      rcases eq_or_ne j K with rfl | hne
      · rw [getD_set_self _ _ _ _ (by rw [hf3, ihll]; exact hLpK_lt)]
        rfl
      · have hjK : j < K := by omega
        have hLpne : (prefixSums (colCountsOf A.pattern) A.pattern.n).getD K 0 ≠
            (prefixSums (colCountsOf A.pattern) A.pattern.n).getD j 0 := by
          have hg : ∀ t, t < A.pattern.n →
              (prefixSums (colCountsOf A.pattern) A.pattern.n).getD t 0 <
              (prefixSums (colCountsOf A.pattern) A.pattern.n).getD (t+1) 0 := by
            intro t ht
            rw [Lp_succ_formula A.pattern t ht]
            omega
          have := chain_lt_of_succ _ A.pattern.n hg j K hjK (Nat.le_of_lt hKn)
          omega
        rw [getD_set_ne _ _ _ hLpne, hf4 j (by omega)]
        exact ihd j hjK

/-- C9: every diagonal slot of the simplicial numeric LDLT factor (the value
at position L_col_ptrs[k] for each column k) has imaginary part zero: the
diagonal of D is stored through from_real. Proved for every numeric input
over the rational-complex scalars, with the symbolic factor produced by the
pipeline on its pattern. -/
theorem simplicial_numeric_diag_real (A : CscQ) (k : Nat) (hk : k < A.n) :
    ((factorize_simplicial_numeric_ldlt A
        (ghost_factorize_simplicial_symbolic A.pattern (etreeOf A.pattern)
          (colCountsOf A.pattern))).getD
      ((ghost_factorize_simplicial_symbolic A.pattern (etreeOf A.pattern)
          (colCountsOf A.pattern)).col_ptrs.getD k 0) CQ.zero).im = 0 :=
  (numFill_inv A A.n (Nat.le_refl _)).2.2.2.2 k hk

/-- Witness for C9 on a concrete 2x2 Hermitian matrix with a complex
off-diagonal entry. -/
theorem simplicial_numeric_diag_real_witness :
    ((factorize_simplicial_numeric_ldlt ⟨2, [0,1,3], [0,0,1], [⟨4,0⟩, ⟨1,-2⟩, ⟨5,0⟩]⟩
        (ghost_factorize_simplicial_symbolic
          (CscQ.pattern ⟨2, [0,1,3], [0,0,1], [⟨4,0⟩, ⟨1,-2⟩, ⟨5,0⟩]⟩)
          (etreeOf (CscQ.pattern ⟨2, [0,1,3], [0,0,1], [⟨4,0⟩, ⟨1,-2⟩, ⟨5,0⟩]⟩))
          (colCountsOf (CscQ.pattern ⟨2, [0,1,3], [0,0,1], [⟨4,0⟩, ⟨1,-2⟩, ⟨5,0⟩]⟩)))).getD
      ((ghost_factorize_simplicial_symbolic
          (CscQ.pattern ⟨2, [0,1,3], [0,0,1], [⟨4,0⟩, ⟨1,-2⟩, ⟨5,0⟩]⟩)
          (etreeOf (CscQ.pattern ⟨2, [0,1,3], [0,0,1], [⟨4,0⟩, ⟨1,-2⟩, ⟨5,0⟩]⟩))
          (colCountsOf (CscQ.pattern ⟨2, [0,1,3], [0,0,1],
            [⟨4,0⟩, ⟨1,-2⟩, ⟨5,0⟩]⟩))).col_ptrs.getD 1 0) CQ.zero).im = 0 :=
  simplicial_numeric_diag_real ⟨2, [0,1,3], [0,0,1], [⟨4,0⟩, ⟨1,-2⟩, ⟨5,0⟩]⟩ 1
    (by decide)

/-! ### Generic list lemmas for the transpose (claim C7) -/

theorem foldl_flatMap {α β σ : Type} (g : α → List β) (f : σ → β → σ) :
    ∀ (l : List α) (init : σ),
      (l.flatMap g).foldl f init = l.foldl (fun st a => (g a).foldl f st) init := by
  intro l
  induction l with
  | nil => intro init; rfl
  | cons a l ih =>
    intro init
    rw [List.flatMap_cons, List.foldl_append, List.foldl_cons, ih]

theorem countP_flatMap {α β : Type} (p : β → Bool) (g : α → List β) :
    ∀ l : List α,
      (l.flatMap g).countP p = (l.map (fun a => (g a).countP p)).sum := by
  intro l
  induction l with
  | nil => rfl
  | cons a l ih =>
    rw [List.flatMap_cons, List.countP_append, List.map_cons, List.sum_cons, ih]

theorem filter_flatMap_comm {α β : Type} (p : β → Bool) (g : α → List β) :
    ∀ l : List α,
      (l.flatMap g).filter p = l.flatMap (fun a => (g a).filter p) := by
  intro l
  induction l with
  | nil => rfl
  | cons a l ih =>
    rw [List.flatMap_cons, List.flatMap_cons, List.filter_append, ih]

theorem flatMap_congr_mem {α β : Type} (l : List α) (f g : α → List β)
    (h : ∀ a ∈ l, f a = g a) : l.flatMap f = l.flatMap g := by
  induction l with
  | nil => rfl
  | cons a l ih =>
    rw [List.flatMap_cons, List.flatMap_cons, h a (List.mem_cons_self a l),
      ih (fun b hb => h b (List.mem_cons_of_mem a hb))]

theorem flatMap_nil_of {α β : Type} (l : List α) (f : α → List β)
    (h : ∀ a ∈ l, f a = []) : l.flatMap f = [] := by
  induction l with
  | nil => rfl
  | cons a l ih =>
    rw [List.flatMap_cons, h a (List.mem_cons_self a l),
      ih (fun b hb => h b (List.mem_cons_of_mem a hb))]
    rfl

theorem chain_le_of_succ (g : Nat → Nat) (n : Nat)
    (h : ∀ j, j < n → g j ≤ g (j+1)) :
    ∀ a b, a ≤ b → b ≤ n → g a ≤ g b := by
  intro a b
  induction b with
  | zero => intro hab _; have : a = 0 := by omega
            subst this; exact Nat.le_refl _
  | succ b ih =>
    intro hab hbn
    rcases Nat.lt_or_ge a (b+1) with hab2 | hab2
    · exact Nat.le_trans (ih (by omega) (by omega)) (h b (by omega))
    · have : a = b + 1 := by omega
      subst this; exact Nat.le_refl _

/-- The counting fold of the first pass: each key below m gets its
occurrence count added, the length is preserved. -/
theorem bump_fold_spec (m : Nat) :
    ∀ (l : List Nat) (cnt : List Nat), cnt.length = m → (∀ x ∈ l, x < m) →
      (l.foldl (fun cnt i => cnt.set i (cnt.getD i 0 + 1)) cnt).length = m ∧
      ∀ i, (l.foldl (fun cnt i => cnt.set i (cnt.getD i 0 + 1)) cnt).getD i 0
            = cnt.getD i 0 + l.count i := by
  intro l
  induction l with
  | nil =>
    intro cnt hlen _
    exact ⟨hlen, fun i => by simp⟩
  | cons x l ih =>
    intro cnt hlen hmem
    have hx : x < m := hmem x (List.mem_cons_self x l)
    have hlen' : (cnt.set x (cnt.getD x 0 + 1)).length = m := by
      simpa using hlen
    obtain ⟨h1, h2⟩ := ih (cnt.set x (cnt.getD x 0 + 1)) hlen'
      (fun y hy => hmem y (List.mem_cons_of_mem x hy))
    refine ⟨h1, fun i => ?_⟩
    rw [List.foldl_cons, h2 i, List.count_cons]
    by_cases hxi : x = i
    · subst hxi
      rw [getD_set_self _ _ _ _ (by omega)]
      simp only [beq_self_eq_true, if_true]
      omega
    · rw [getD_set_ne _ _ _ hxi]
      have hb : (x == i) = false := by simp [hxi]
      rw [hb]
      simp

/-- With equal-length value and row-index arrays, the first components of
the entries of column j are exactly its row indices. -/
theorem colEntries_map_fst {α : Type} (A : CscV α)
    (hv : A.vals.length = A.rowInd.length) (j : Nat) :
    (A.colEntries j).map Prod.fst = A.rowsOfCol j := by
  unfold CscV.colEntries CscV.rowsOfCol
  apply List.map_fst_zip
  simp [hv]

/-- With equal-length value and row-index arrays, the second components of
the entries of column j are exactly its values. -/
theorem colEntries_map_snd {α : Type} (A : CscV α)
    (hv : A.vals.length = A.rowInd.length) (j : Nat) :
    (A.colEntries j).map Prod.snd =
      (A.vals.drop (A.colPtr.getD j 0)).take
        (A.colPtr.getD (j+1) 0 - A.colPtr.getD j 0) := by
  unfold CscV.colEntries
  apply List.map_snd_zip
  simp [hv]

/-- Glueing adjacent slices of a list. -/
theorem slice_glue {α : Type} (l : List α) (a b c : Nat) (hab : a ≤ b)
    (hbc : b ≤ c) :
    (l.drop a).take (b - a) ++ (l.drop b).take (c - b)
      = (l.drop a).take (c - a) := by
  have h1 : (l.drop a).drop (b - a) = l.drop b := by
    rw [List.drop_drop]
    congr 1
    omega
  have h2 : c - a = (b - a) + (c - b) := by omega
  rw [h2, List.take_add, h1]

/-- Tiling: a list is the concatenation of its column slices. -/
theorem tiling_aux {α : Type} (l : List α) (cp : List Nat) (n : Nat)
    (hmono : ∀ j, j < n → cp.getD j 0 ≤ cp.getD (j+1) 0) :
    ∀ (len lo : Nat), lo + len ≤ n →
      (List.range' lo len).flatMap
        (fun j => (l.drop (cp.getD j 0)).take (cp.getD (j+1) 0 - cp.getD j 0))
      = (l.drop (cp.getD lo 0)).take (cp.getD (lo+len) 0 - cp.getD lo 0) := by
  intro len
  induction len with
  | zero =>
    intro lo _
    simp
  | succ len ih =>
    intro lo hlo
    rw [List.range'_succ, List.flatMap_cons, ih (lo+1) (by omega)]
    have hm1 : cp.getD lo 0 ≤ cp.getD (lo+1) 0 := hmono lo (by omega)
    have hm2 : cp.getD (lo+1) 0 ≤ cp.getD (lo+1+len) 0 :=
      chain_le_of_succ (fun j => cp.getD j 0) n hmono (lo+1) (lo+1+len)
        (by omega) (by omega)
    rw [slice_glue l _ _ _ hm1 hm2,
      show lo + (len+1) = lo + 1 + len from by omega]

theorem tiling {α : Type} (l : List α) (cp : List Nat) (n : Nat)
    (h0 : cp.getD 0 0 = 0)
    (hmono : ∀ j, j < n → cp.getD j 0 ≤ cp.getD (j+1) 0)
    (hend : cp.getD n 0 = l.length) :
    (List.range n).flatMap
      (fun j => (l.drop (cp.getD j 0)).take (cp.getD (j+1) 0 - cp.getD j 0))
      = l := by
  rw [List.range_eq_range', tiling_aux l cp n hmono n 0 (by omega)]
  rw [show (0 + n) = n from by omega, h0, hend]
  simp

/-- Every entry of the stream carries a column index below n. -/
theorem entryStream_col_lt {α : Type} (A : CscV α) :
    ∀ t ∈ entryStream A, t.1 < A.n := by
  intro t ht
  unfold entryStream at ht
  rw [List.mem_flatMap] at ht
  obtain ⟨j, hj, ht⟩ := ht
  rw [List.mem_map] at ht
  obtain ⟨e, _, rfl⟩ := ht
  exact List.mem_range.mp hj

/-- If all row indices are below m, every entry of the stream carries a row
index below m. -/
theorem entryStream_key_lt {α : Type} (A : CscV α)
    (hrows : ∀ i ∈ A.rowInd, i < A.m) :
    ∀ t ∈ entryStream A, t.2.1 < A.m := by
  intro t ht
  unfold entryStream at ht
  rw [List.mem_flatMap] at ht
  obtain ⟨j, _, ht⟩ := ht
  rw [List.mem_map] at ht
  obtain ⟨e, he, rfl⟩ := ht
  unfold CscV.colEntries at he
  have := (List.of_mem_zip he).1
  exact hrows e.1 (List.mem_of_mem_drop (List.mem_of_mem_take this))

/-- The row-index stream walked by the count pass is the key projection of
the entry stream. -/
theorem rowStream_eq_map {α : Type} (A : CscV α)
    (hv : A.vals.length = A.rowInd.length) :
    (List.range A.n).flatMap A.rowsOfCol
      = (entryStream A).map (fun t => t.2.1) := by
  unfold entryStream
  rw [List.map_flatMap]
  apply flatMap_congr_mem
  intro j _
  rw [List.map_map, show ((fun (t : Nat × Nat × α) => t.2.1) ∘
      (fun e : Nat × α => (j, e.1, e.2))) = Prod.fst from rfl,
    colEntries_map_fst A hv]

/-- The count pass computes, for every row index i, the number of entries
of the stream with key i. -/
theorem transposeCounts_spec {α : Type} (A : CscV α)
    (hv : A.vals.length = A.rowInd.length)
    (hk : ∀ t ∈ entryStream A, t.2.1 < A.m) :
    (transposeCounts A).length = A.m ∧
    ∀ i, (transposeCounts A).getD i 0
        = (entryStream A).countP (fun t => t.2.1 == i) := by
  unfold transposeCounts
  rw [← foldl_flatMap]
  obtain ⟨h1, h2⟩ := bump_fold_spec A.m ((List.range A.n).flatMap A.rowsOfCol)
    (List.replicate A.m 0) (by simp)
    (by
      intro x hx
      rw [rowStream_eq_map A hv, List.mem_map] at hx
      obtain ⟨t, ht, rfl⟩ := hx
      exact hk t ht)
  refine ⟨h1, fun i => ?_⟩
  rw [h2 i, rowStream_eq_map A hv, List.count_eq_countP, List.countP_map]
  have hz : (List.replicate A.m (0:Nat)).getD i 0 = 0 := by
    rcases Nat.lt_or_ge i A.m with h | h
    · exact getD_replicate _ _ h
    · rw [List.getD_eq_default]
      simpa using h
  rw [hz, Nat.zero_add]
  rfl

/-- The write pass is the fold of scatterStep over the entry stream. -/
theorem transposeWritePass_eq {α : Type} (A : CscV α) (cur0 : List Nat)
    (N : Nat) (d : α) :
    transposeWritePass A cur0 N d
      = (entryStream A).foldl scatterStep
          (List.replicate N 0, List.replicate N d, cur0) := by
  unfold transposeWritePass entryStream
  rw [foldl_flatMap]
  have h : (fun (st : List Nat × List α × List Nat) j =>
      (A.colEntries j).foldl
        (fun (st : List Nat × List α × List Nat) e =>
          (st.1.set (st.2.2.getD e.1 0) j,
           st.2.1.set (st.2.2.getD e.1 0) e.2,
           st.2.2.set e.1 (st.2.2.getD e.1 0 + 1))) st)
      = (fun st j => (((A.colEntries j).map
          (fun e => (j, e.1, e.2))).foldl scatterStep) st) := by
    funext st j
    dsimp only
    rw [List.foldl_map]
    rfl
  rw [h]

/-- tCol is the key-i filter of the entry stream, forgetting the key. -/
theorem tCol_eq_filter {α : Type} (A : CscV α) (i : Nat) :
    tCol A i = ((entryStream A).filter (fun t => t.2.1 == i)).map
      (fun t => (t.1, t.2.2)) := by
  unfold tCol entryStream
  rw [filter_flatMap_comm, List.map_flatMap]
  apply flatMap_congr_mem
  intro j _
  rw [List.filter_map, List.map_map]
  rfl

/-- The number of key-i entries of the stream is the length of tCol. -/
theorem countP_key_eq_length_tCol {α : Type} (A : CscV α) (i : Nat) :
    (entryStream A).countP (fun t => t.2.1 == i) = (tCol A i).length := by
  rw [tCol_eq_filter, List.length_map, List.countP_eq_length_filter]

/-- Invariant of the scatter fold: after processing a prefix of the entry
stream, the cursor of each row bucket i sits at s i plus the number of
key-i entries already seen, and the slots [s i, cursor) hold the column
indices and values of those entries in order. -/
theorem scatter_inv {α : Type} (m N : Nat) (s : Nat → Nat) (d : α)
    (E0 : List (Nat × Nat × α))
    (hkey : ∀ x ∈ E0, x.2.1 < m)
    (hssucc : ∀ i, i < m → s (i+1) = s i + E0.countP (fun x => x.2.1 == i))
    (hsmono : ∀ a b, a ≤ b → b ≤ m → s a ≤ s b)
    (hsm : s m ≤ N) :
    ∀ (l pre : List (Nat × Nat × α)), E0 = pre ++ l →
      ∀ (st : List Nat × List α × List Nat),
        st.1.length = N → st.2.1.length = N → st.2.2.length = m →
        (∀ i, i < m →
          st.2.2.getD i 0 = s i + pre.countP (fun x => x.2.1 == i)) →
        (∀ i, i < m → ∀ c, c < pre.countP (fun x => x.2.1 == i) →
          st.1.getD (s i + c) 0
            = ((pre.filter (fun x => x.2.1 == i)).getD c (0,0,d)).1 ∧
          st.2.1.getD (s i + c) d
            = ((pre.filter (fun x => x.2.1 == i)).getD c (0,0,d)).2.2) →
        (l.foldl scatterStep st).1.length = N ∧
        (l.foldl scatterStep st).2.1.length = N ∧
        (l.foldl scatterStep st).2.2.length = m ∧
        (∀ i, i < m → (l.foldl scatterStep st).2.2.getD i 0
            = s i + E0.countP (fun x => x.2.1 == i)) ∧
        (∀ i, i < m → ∀ c, c < E0.countP (fun x => x.2.1 == i) →
          (l.foldl scatterStep st).1.getD (s i + c) 0
            = ((E0.filter (fun x => x.2.1 == i)).getD c (0,0,d)).1 ∧
          (l.foldl scatterStep st).2.1.getD (s i + c) d
            = ((E0.filter (fun x => x.2.1 == i)).getD c (0,0,d)).2.2) := by
  intro l
  induction l with
  | nil =>
    intro pre hpre st h1 h2 h3 hcur hcont
    rw [List.append_nil] at hpre
    subst hpre
    exact ⟨h1, h2, h3, hcur, hcont⟩
  | cons t l ih =>
    intro pre hpre st h1 h2 h3 hcur hcont
    rw [List.foldl_cons]
    have htE : t ∈ E0 := by rw [hpre]; simp
    have hi0 : t.2.1 < m := hkey t htE
    have hsplit : E0.countP (fun x => x.2.1 == t.2.1)
        = pre.countP (fun x => x.2.1 == t.2.1)
          + (t :: l).countP (fun x => x.2.1 == t.2.1) := by
      rw [hpre, List.countP_append]
    have hcp_lt : pre.countP (fun x => x.2.1 == t.2.1)
        < E0.countP (fun x => x.2.1 == t.2.1) := by
      rw [hsplit, List.countP_cons]
      simp only [beq_self_eq_true, if_true]
      omega
    have hpeq : st.2.2.getD t.2.1 0
        = s t.2.1 + pre.countP (fun x => x.2.1 == t.2.1) := hcur t.2.1 hi0
    have hpN : st.2.2.getD t.2.1 0 < N := by
      have h4 := hssucc t.2.1 hi0
      have h5 : s (t.2.1 + 1) ≤ s m :=
        hsmono (t.2.1 + 1) m (by omega) (Nat.le_refl m)
      omega
    refine ih (pre ++ [t]) ?_ (scatterStep st t) ?_ ?_ ?_ ?_ ?_
    · rw [hpre, List.append_assoc]
      rfl
    · show (st.1.set (st.2.2.getD t.2.1 0) t.1).length = N
      simpa using h1
    · show (st.2.1.set (st.2.2.getD t.2.1 0) t.2.2).length = N
      simpa using h2
    · show (st.2.2.set t.2.1 (st.2.2.getD t.2.1 0 + 1)).length = m
      simpa using h3
    · intro i him
      show (st.2.2.set t.2.1 (st.2.2.getD t.2.1 0 + 1)).getD i 0
        = s i + (pre ++ [t]).countP (fun x => x.2.1 == i)
      rw [List.countP_append]
      by_cases hii : t.2.1 = i
      · subst hii
        rw [getD_set_self _ _ _ _ (by rw [h3]; exact him), hpeq]
        simp only [List.countP_cons, List.countP_nil, beq_self_eq_true,
          if_true]
        omega
      · rw [getD_set_ne _ _ _ hii, hcur i him]
        have hz : ([t].countP (fun x => x.2.1 == i)) = 0 := by
          simp only [List.countP_cons, List.countP_nil]
          have hb : (t.2.1 == i) = false := by simp [hii]
          rw [hb]
          rfl
        rw [hz]
        omega
    · intro i him c hc
      show (st.1.set (st.2.2.getD t.2.1 0) t.1).getD (s i + c) 0
          = (((pre ++ [t]).filter (fun x => x.2.1 == i)).getD c (0,0,d)).1 ∧
        (st.2.1.set (st.2.2.getD t.2.1 0) t.2.2).getD (s i + c) d
          = (((pre ++ [t]).filter (fun x => x.2.1 == i)).getD c (0,0,d)).2.2
      rw [List.filter_append]
      by_cases hii : t.2.1 = i
      · subst hii
        have hft : [t].filter (fun x => x.2.1 == t.2.1) = [t] := by simp
        have hfl : (pre.filter (fun x => x.2.1 == t.2.1)).length
            = pre.countP (fun x => x.2.1 == t.2.1) :=
          (List.countP_eq_length_filter _ _).symm
        rw [hft]
        rw [List.countP_append] at hc
        have hc1 : [t].countP (fun x => x.2.1 == t.2.1) = 1 := by
          simp only [List.countP_cons, List.countP_nil, beq_self_eq_true,
            if_true]
        rw [hc1] at hc
        rcases Nat.lt_or_ge c (pre.countP (fun x => x.2.1 == t.2.1)) with
          hclt | hcge
        · have hne : st.2.2.getD t.2.1 0 ≠ s t.2.1 + c := by omega
          rw [getD_set_ne _ _ _ hne, getD_set_ne _ _ _ hne]
          obtain ⟨ha, hb⟩ := hcont t.2.1 him c hclt
          rw [List.getD_append _ _ _ c (by rw [hfl]; exact hclt)]
          exact ⟨ha, hb⟩
        · have hceq : c = pre.countP (fun x => x.2.1 == t.2.1) := by omega
          subst hceq
          rw [← hpeq]
          rw [getD_set_self _ _ _ _ (by rw [h1]; exact hpN),
            getD_set_self _ _ _ _ (by rw [h2]; exact hpN)]
          rw [List.getD_append_right _ _ _ _ (by rw [hfl])]
          rw [show pre.countP (fun x => x.2.1 == t.2.1)
              - (pre.filter (fun x => x.2.1 == t.2.1)).length = 0 from by
            rw [hfl]
            omega]
          exact ⟨rfl, rfl⟩
      · have hft : [t].filter (fun x => x.2.1 == i) = [] := by
          simp [hii]
        have hz : ([t].countP (fun x => x.2.1 == i)) = 0 := by
          simp only [List.countP_cons, List.countP_nil]
          have hb : (t.2.1 == i) = false := by simp [hii]
          rw [hb]
          rfl
        rw [List.countP_append, hz] at hc
        have hc' : c < pre.countP (fun x => x.2.1 == i) := by omega
        have hcleE : pre.countP (fun x => x.2.1 == i)
            ≤ E0.countP (fun x => x.2.1 == i) := by
          rw [hpre, List.countP_append]
          omega
        have hlt : s i + c < s (i+1) := by
          have h4 := hssucc i him
          omega
        have hne : st.2.2.getD t.2.1 0 ≠ s i + c := by
          rcases Nat.lt_or_ge i t.2.1 with hlt2 | hge2
          · have h6 : s (i+1) ≤ s t.2.1 :=
              hsmono (i+1) t.2.1 (by omega) (by omega)
            omega
          · have hgt2 : t.2.1 < i := by omega
            have h4 := hssucc t.2.1 hi0
            have h6 : s (t.2.1+1) ≤ s i :=
              hsmono (t.2.1+1) i (by omega) (by omega)
            omega
        rw [getD_set_ne _ _ _ hne, getD_set_ne _ _ _ hne, hft,
          List.append_nil]
        exact hcont i him c hc'

/-- A slice of a list is determined by pointwise getD values. -/
theorem slice_eq_of_getD {α : Type} (l : List α) (a k : Nat) (tgt : List α)
    (d : α) (hlen : a + k ≤ l.length) (htlen : tgt.length = k)
    (h : ∀ c, c < k → l.getD (a + c) d = tgt.getD c d) :
    (l.drop a).take k = tgt := by
  apply List.ext_getElem
  · rw [List.length_take, List.length_drop]
    omega
  · intro c hc1 hc2
    have hck : c < k := by
      rw [List.length_take, List.length_drop] at hc1
      omega
    have hac : a + c < l.length := by omega
    have e1 : ((l.drop a).take k)[c] = l[a + c] := by
      rw [List.getElem_take, List.getElem_drop]
    rw [e1, ← List.getD_eq_getElem l d hac, h c hck,
      List.getD_eq_getElem tgt d (by omega)]

theorem getD_map_lt {α β : Type} (g : α → β) (l : List α) (c : Nat)
    (h : c < l.length) (d0 : α) (d1 : β) :
    (l.map g).getD c d1 = g (l.getD c d0) := by
  rw [List.getD_eq_getElem _ _ (by simpa using h),
    List.getD_eq_getElem _ _ h]
  simp

/-- Full characterization of ghost_transpose: the transposed matrix swaps
the dimensions, its column pointers are the prefix sums of the per-row
entry counts of the stream, its buffers are completely filled, and its
column i lists exactly the key-i entries of A, in column-major order. -/
theorem ghost_transpose_spec {α : Type} (A : CscV α) (d : α)
    (hv : A.vals.length = A.rowInd.length)
    (hk : ∀ x ∈ entryStream A, x.2.1 < A.m) :
    (ghost_transpose A d).m = A.n ∧
    (ghost_transpose A d).n = A.m ∧
    (ghost_transpose A d).colPtr.length = A.m + 1 ∧
    (∀ t, t ≤ A.m → (ghost_transpose A d).colPtr.getD t 0 =
      ((List.range t).map
        (fun u => (entryStream A).countP (fun x => x.2.1 == u))).sum) ∧
    (ghost_transpose A d).rowInd.length
      = (ghost_transpose A d).colPtr.getD A.m 0 ∧
    (ghost_transpose A d).vals.length
      = (ghost_transpose A d).colPtr.getD A.m 0 ∧
    (∀ i, i < A.m → (ghost_transpose A d).colEntries i = tCol A i) := by
  obtain ⟨hcl, hcg⟩ := transposeCounts_spec A hv hk
  obtain ⟨hpl, hpg⟩ := prefixSums_spec (transposeCounts A) A.m
  have hncp : ∀ t, t ≤ A.m → (prefixSums (transposeCounts A) A.m).getD t 0
      = ((List.range t).map
          (fun u => (entryStream A).countP (fun x => x.2.1 == u))).sum := by
    intro t ht
    rw [hpg t ht]
    congr 1
    apply List.map_congr_left
    intro u _
    exact hcg u
  have hTcp : (ghost_transpose A d).colPtr
      = prefixSums (transposeCounts A) A.m := rfl
  have hTri : (ghost_transpose A d).rowInd
      = (transposeWritePass A ((prefixSums (transposeCounts A) A.m).take A.m)
          ((prefixSums (transposeCounts A) A.m).getD A.m 0) d).1 := rfl
  have hTvs : (ghost_transpose A d).vals
      = (transposeWritePass A ((prefixSums (transposeCounts A) A.m).take A.m)
          ((prefixSums (transposeCounts A) A.m).getD A.m 0) d).2.1 := rfl
  have hss : ∀ i, i < A.m →
      ((List.range (i+1)).map
        (fun u => (entryStream A).countP (fun x => x.2.1 == u))).sum
      = ((List.range i).map
          (fun u => (entryStream A).countP (fun x => x.2.1 == u))).sum
        + (entryStream A).countP (fun x => x.2.1 == i) := by
    intro i _
    exact range_map_sum_succ _ i
  have hsmono' : ∀ a b, a ≤ b → b ≤ A.m →
      ((List.range a).map
        (fun u => (entryStream A).countP (fun x => x.2.1 == u))).sum
      ≤ ((List.range b).map
          (fun u => (entryStream A).countP (fun x => x.2.1 == u))).sum :=
    fun a b hab _ => range_map_sum_mono _ a b hab
  have hNval : (prefixSums (transposeCounts A) A.m).getD A.m 0
      = ((List.range A.m).map
          (fun u => (entryStream A).countP (fun x => x.2.1 == u))).sum :=
    hncp A.m (Nat.le_refl _)
  obtain ⟨hw1, hw2, hw3, hwcur, hwcont⟩ := scatter_inv A.m
    ((prefixSums (transposeCounts A) A.m).getD A.m 0)
    (fun u => ((List.range u).map
      (fun u' => (entryStream A).countP (fun x => x.2.1 == u'))).sum)
    d (entryStream A) hk
    (fun i him => hss i him) hsmono' (Nat.le_of_eq hNval.symm)
    (entryStream A) [] (List.nil_append _).symm
    (List.replicate ((prefixSums (transposeCounts A) A.m).getD A.m 0) 0,
     List.replicate ((prefixSums (transposeCounts A) A.m).getD A.m 0) d,
     (prefixSums (transposeCounts A) A.m).take A.m)
    (by simp) (by simp)
    (by rw [List.length_take, hpl]; omega)
    (by
      intro i him
      show ((prefixSums (transposeCounts A) A.m).take A.m).getD i 0 = _
      rw [getD_take _ _ _ him, hncp i (Nat.le_of_lt him)]
      simp)
    (by intro i him c hc; simp at hc)
  rw [← transposeWritePass_eq] at hw1 hw2 hwcur hwcont
  refine ⟨rfl, rfl, ?_, ?_, ?_, ?_, ?_⟩
  · rw [hTcp]
    exact hpl
  · intro t ht
    rw [hTcp]
    exact hncp t ht
  · rw [hTri, hTcp, hw1]
  · rw [hTvs, hTcp, hw2]
  · intro i him
    have hcnt : (entryStream A).countP (fun x => x.2.1 == i)
        = ((List.filter (fun x => x.2.1 == i) (entryStream A))).length :=
      List.countP_eq_length_filter _ _
    have hi1 : i + 1 ≤ A.m := him
    have hdiff : (ghost_transpose A d).colPtr.getD (i+1) 0
        - (ghost_transpose A d).colPtr.getD i 0
        = (entryStream A).countP (fun x => x.2.1 == i) := by
      rw [hTcp, hncp (i+1) hi1, hncp i (Nat.le_of_lt him), hss i him]
      omega
    have hup : ((List.range i).map
        (fun u => (entryStream A).countP (fun x => x.2.1 == u))).sum
        + (entryStream A).countP (fun x => x.2.1 == i)
        ≤ (prefixSums (transposeCounts A) A.m).getD A.m 0 := by
      rw [hNval, ← hss i him]
      exact range_map_sum_mono _ (i+1) A.m him
    show List.zip
        (((ghost_transpose A d).rowInd.drop
          ((ghost_transpose A d).colPtr.getD i 0)).take
            ((ghost_transpose A d).colPtr.getD (i+1) 0
              - (ghost_transpose A d).colPtr.getD i 0))
        (((ghost_transpose A d).vals.drop
          ((ghost_transpose A d).colPtr.getD i 0)).take
            ((ghost_transpose A d).colPtr.getD (i+1) 0
              - (ghost_transpose A d).colPtr.getD i 0))
      = tCol A i
    rw [hdiff, tCol_eq_filter]
    have hri : ((ghost_transpose A d).rowInd.drop
          ((ghost_transpose A d).colPtr.getD i 0)).take
            ((entryStream A).countP (fun x => x.2.1 == i))
        = ((entryStream A).filter (fun x => x.2.1 == i)).map
            (fun x => x.1) := by
      apply slice_eq_of_getD _ _ _ _ 0
      · rw [hTri, hw1, hTcp, hncp i (Nat.le_of_lt him)]
        exact hup
      · rw [List.length_map, ← hcnt]
      · intro c hc
        rw [hTcp, hncp i (Nat.le_of_lt him), hTri]
        rw [(hwcont i him c hc).1,
          getD_map_lt _ _ _ (by rw [← hcnt]; exact hc) (0,0,d) 0]
    have hvs : ((ghost_transpose A d).vals.drop
          ((ghost_transpose A d).colPtr.getD i 0)).take
            ((entryStream A).countP (fun x => x.2.1 == i))
        = ((entryStream A).filter (fun x => x.2.1 == i)).map
            (fun x => x.2.2) := by
      apply slice_eq_of_getD _ _ _ _ d
      · rw [hTvs, hw2, hTcp, hncp i (Nat.le_of_lt him)]
        exact hup
      · rw [List.length_map, ← hcnt]
      · intro c hc
        rw [hTcp, hncp i (Nat.le_of_lt him), hTvs]
        rw [(hwcont i him c hc).2,
          getD_map_lt _ _ _ (by rw [← hcnt]; exact hc) (0,0,d) d]
    rw [hri, hvs, List.zip_map']

theorem flatMap_single {β : Type} (f : Nat → List β) :
    ∀ (len lo j : Nat), lo ≤ j → j < lo + len →
      (∀ u, lo ≤ u → u < lo + len → u ≠ j → f u = []) →
      (List.range' lo len).flatMap f = f j := by
  intro len
  induction len with
  | zero =>
    intro lo j h1 h2 _
    omega
  | succ len ih =>
    intro lo j h1 h2 hz
    rw [List.range'_succ, List.flatMap_cons]
    by_cases hlj : lo = j
    · subst hlj
      have hnil : (List.range' (lo+1) len).flatMap f = [] := by
        apply flatMap_nil_of
        intro u hu
        rw [List.mem_range'_1] at hu
        exact hz u (by omega) (by omega) (by omega)
      rw [hnil, List.append_nil]
    · rw [hz lo (Nat.le_refl _) (by omega) hlj, List.nil_append]
      exact ih (lo+1) j (by omega) (by omega)
        (fun u hu1 hu2 huj => hz u (by omega) (by omega) huj)

/-- Filtering the stream by a fixed column and row picks the matching
entries of that one column. -/
theorem filter_entryStream_col_key {α : Type} (A : CscV α) (i j : Nat)
    (hj : j < A.n) :
    (entryStream A).filter (fun x => x.1 == j && x.2.1 == i)
      = ((A.colEntries j).filter (fun e => e.1 == i)).map
          (fun e => (j, e.1, e.2)) := by
  unfold entryStream
  rw [filter_flatMap_comm, List.range_eq_range']
  rw [flatMap_single _ A.n 0 j (Nat.zero_le _) (by omega) ?side]
  case side =>
    intro u _ hu hune
    rw [List.filter_map]
    rw [List.filter_eq_nil_iff.mpr ?emp]
    · rfl
    case emp =>
      intro e _
      show ¬((fun x : Nat × Nat × α => x.1 == j && x.2.1 == i)
        ((fun e : Nat × α => (u, e.1, e.2)) e) = true)
      simp [hune]
  · rw [List.filter_map]
    rw [List.filter_congr (p := (fun x : Nat × Nat × α => x.1 == j && x.2.1 == i)
        ∘ (fun e : Nat × α => (j, e.1, e.2))) ?pr]
    case pr =>
      intro e _
      show ((j == j) && (e.1 == i)) = (e.1 == i)
      simp

/-- Flattening the single-row filters of a strictly sorted entry list over
its full key range reproduces the list. -/
theorem flatMap_filter_eq_self {α : Type} :
    ∀ (len lo : Nat) (es : List (Nat × α)),
      List.Pairwise (fun a b => a.1 < b.1) es →
      (∀ e ∈ es, lo ≤ e.1 ∧ e.1 < lo + len) →
      (List.range' lo len).flatMap
        (fun i => (es.filter (fun e => e.1 == i)).map (fun e => (i, e.2)))
      = es := by
  intro len
  induction len with
  | zero =>
    intro lo es _ hb
    cases es with
    | nil => rfl
    | cons e es => exact absurd (hb e (by simp)) (by omega)
  | succ len ih =>
    intro lo es hp hb
    rw [List.range'_succ, List.flatMap_cons]
    cases es with
    | nil =>
      rw [show (([] : List (Nat × α)).filter (fun e => e.1 == lo)).map
          (fun e => (lo, e.2)) = [] from rfl, List.nil_append]
      exact ih (lo+1) [] List.Pairwise.nil (by simp)
    | cons e es' =>
      obtain ⟨hhead, htail⟩ := List.pairwise_cons.mp hp
      obtain ⟨hel, heu⟩ := hb e (List.mem_cons_self e es')
      by_cases helo : e.1 = lo
      · have hfe : (e :: es').filter (fun x => x.1 == lo) = [e] := by
          rw [List.filter_cons]
          have : (e.1 == lo) = true := by simp [helo]
          rw [this]
          simp only [if_true]
          rw [List.filter_eq_nil_iff.mpr]
          intro x hx
          have := hhead x hx
          simp
          omega
        rw [hfe]
        have hmape : ([e].map (fun x : Nat × α => (lo, x.2))) = [e] := by
          simp only [List.map_cons, List.map_nil]
          rw [← helo]
        have hrest : (List.range' (lo+1) len).flatMap
            (fun i => ((e :: es').filter (fun x => x.1 == i)).map
              (fun x => (i, x.2)))
            = (List.range' (lo+1) len).flatMap
              (fun i => (es'.filter (fun x => x.1 == i)).map
                (fun x => (i, x.2))) := by
          apply flatMap_congr_mem
          intro u hu
          rw [List.mem_range'_1] at hu
          rw [List.filter_cons]
          have : (e.1 == u) = false := by
            simp
            omega
          rw [this]
          simp only [if_neg Bool.false_ne_true]
        rw [hmape, hrest, ih (lo+1) es' htail ?bnd]
        case bnd =>
          intro x hx
          have h8 := hhead x hx
          have h9 := hb x (List.mem_cons_of_mem e hx)
          omega
        rfl
      · have hfe : (e :: es').filter (fun x => x.1 == lo) = [] := by
          apply List.filter_eq_nil_iff.mpr
          intro x hx
          rcases List.mem_cons.mp hx with rfl | hx'
          · simp
            omega
          · have := hhead x hx'
            simp
            omega
        rw [hfe]
        simp only [List.map_nil, List.nil_append]
        apply ih (lo+1) (e :: es') hp
        intro x hx
        rcases List.mem_cons.mp hx with rfl | hx'
        · omega
        · have h8 := hhead x hx'
          have h9 := hb x (List.mem_cons_of_mem e hx')
          omega

/-- Every entry of a transposed column carries a column index below n. -/
theorem tCol_fst_lt {α : Type} (A : CscV α) (i : Nat) :
    ∀ e ∈ tCol A i, e.1 < A.n := by
  intro e he
  rw [tCol_eq_filter] at he
  rw [List.mem_map] at he
  obtain ⟨x, hx, rfl⟩ := he
  exact entryStream_col_lt A x (List.mem_filter.mp hx).1

/-- For a well-formed matrix, column j holds exactly
col_ptr[j+1] - col_ptr[j] entries. -/
theorem colEntries_length_of {α : Type} (A : CscV α)
    (h3 : ∀ j, j < A.n → A.colPtr.getD j 0 ≤ A.colPtr.getD (j+1) 0)
    (h4 : A.colPtr.getD A.n 0 = A.rowInd.length)
    (h5 : A.vals.length = A.rowInd.length)
    (j : Nat) (hj : j < A.n) :
    (A.colEntries j).length
      = A.colPtr.getD (j+1) 0 - A.colPtr.getD j 0 := by
  have hch : A.colPtr.getD (j+1) 0 ≤ A.rowInd.length := by
    rw [← h4]
    exact chain_le_of_succ (fun u => A.colPtr.getD u 0) A.n h3 (j+1) A.n hj
      (Nat.le_refl _)
  have hmj := h3 j hj
  unfold CscV.colEntries
  rw [List.length_zip, List.length_take, List.length_take,
    List.length_drop, List.length_drop, h5]
  omega

/-- Transposing twice, columnwise: for a matrix T whose columns are
characterized as the transposed columns of A, the transposed columns of T
are the original columns of A, provided the columns of A are strictly
sorted. -/
theorem tCol_transpose {α : Type} (A T : CscV α) (j : Nat)
    (hj : j < A.n) (hTn : T.n = A.m)
    (hchar : ∀ i, i < A.m → T.colEntries i = tCol A i)
    (hsorted : List.Pairwise (fun a b => a.1 < b.1) (A.colEntries j))
    (hbnd : ∀ e ∈ A.colEntries j, e.1 < A.m) :
    tCol T j = A.colEntries j := by
  unfold tCol
  rw [hTn]
  rw [flatMap_congr_mem (List.range A.m) _
    (fun i => ((A.colEntries j).filter (fun e => e.1 == i)).map
      (fun e => (i, e.2))) ?grp]
  case grp =>
    intro i hi
    rw [hchar i (List.mem_range.mp hi), tCol_eq_filter, List.filter_map,
      List.filter_filter]
    rw [show (fun a : Nat × Nat × α =>
        ((fun e : Nat × α => e.1 == j) ∘ fun t : Nat × Nat × α =>
          (t.1, t.2.2)) a && a.2.1 == i)
        = (fun x : Nat × Nat × α => x.1 == j && x.2.1 == i) from rfl]
    rw [filter_entryStream_col_key A i j hj, List.map_map, List.map_map]
    rfl
  · rw [List.range_eq_range']
    exact flatMap_filter_eq_self A.m 0 (A.colEntries j) hsorted
      (fun e he => ⟨Nat.zero_le _, by rw [Nat.zero_add]; exact hbnd e he⟩)

/-- C7: for every CSC matrix in sorted form (well-formed column pointers
and strictly increasing row indices within every column), applying
ghost_transpose twice returns the matrix exactly: the col_ptr, row_ind and
values arrays of transpose(transpose(A)) are identical to those of A. -/
theorem transpose_round_trip {α : Type} (A : CscV α) (hwf : A.WF)
    (d d' : α) :
    (ghost_transpose (ghost_transpose A d) d').colPtr = A.colPtr ∧
    (ghost_transpose (ghost_transpose A d) d').rowInd = A.rowInd ∧
    (ghost_transpose (ghost_transpose A d) d').vals = A.vals := by
  obtain ⟨h1, h2, h3, h4, h5, h6, h7⟩ := hwf
  obtain ⟨sm, sn, scl, scg, srl, svl, schar⟩ :=
    ghost_transpose_spec A d h5 (entryStream_key_lt A h6)
  have hvT : (ghost_transpose A d).vals.length
      = (ghost_transpose A d).rowInd.length := by rw [srl, svl]
  have hkT : ∀ x ∈ entryStream (ghost_transpose A d),
      x.2.1 < (ghost_transpose A d).m := by
    intro x hx
    unfold entryStream at hx
    rw [List.mem_flatMap] at hx
    obtain ⟨i, hi, hx⟩ := hx
    rw [List.mem_map] at hx
    obtain ⟨e, he, rfl⟩ := hx
    rw [List.mem_range] at hi
    rw [sn] at hi
    rw [schar i hi] at he
    have hlt := tCol_fst_lt A i e he
    rw [sm]
    exact hlt
  obtain ⟨tm, tn, tcl, tcg, trl, tvl, tchar⟩ :=
    ghost_transpose_spec (ghost_transpose A d) d' hvT hkT
  have hsort : ∀ j, j < A.n →
      List.Pairwise (fun a b : Nat × α => a.1 < b.1) (A.colEntries j) := by
    intro j hj
    have hh := h7 j hj
    rw [← colEntries_map_fst A h5 j] at hh
    exact List.pairwise_map.mp hh
  have hbnd : ∀ j, j < A.n → ∀ e ∈ A.colEntries j, e.1 < A.m := by
    intro j hj e he
    unfold CscV.colEntries at he
    have hm := (List.of_mem_zip he).1
    exact h6 e.1 (List.mem_of_mem_drop (List.mem_of_mem_take hm))
  have htc : ∀ j, j < A.n →
      tCol (ghost_transpose A d) j = A.colEntries j := by
    intro j hj
    exact tCol_transpose A (ghost_transpose A d) j hj sn schar
      (hsort j hj) (hbnd j hj)
  have hlenc : ∀ j, j < A.n →
      (entryStream (ghost_transpose A d)).countP (fun x => x.2.1 == j)
        = A.colPtr.getD (j+1) 0 - A.colPtr.getD j 0 := by
    intro j hj
    rw [countP_key_eq_length_tCol, htc j hj]
    exact colEntries_length_of A h3 h4 h5 j hj
  have haux : ∀ t, t ≤ A.n →
      ((List.range t).map (fun u =>
        (entryStream (ghost_transpose A d)).countP
          (fun x => x.2.1 == u))).sum = A.colPtr.getD t 0 := by
    intro t
    induction t with
    | zero =>
      intro _
      rw [h2]
      simp
    | succ t iht =>
      intro ht
      rw [range_map_sum_succ, iht (by omega), hlenc t (by omega)]
      have hm := h3 t (by omega)
      omega
  have hcpeq : (ghost_transpose (ghost_transpose A d) d').colPtr
      = A.colPtr := by
    apply List.ext_getElem
    · rw [tcl, sm, h1]
    · intro t ht1 ht2
      have htn : t ≤ A.n := by
        rw [tcl, sm] at ht1
        omega
      rw [← List.getD_eq_getElem _ 0 ht1, ← List.getD_eq_getElem _ 0 ht2]
      rw [tcg t (by rw [sm]; exact htn), haux t htn]
  have hvT2 : (ghost_transpose (ghost_transpose A d) d').vals.length
      = (ghost_transpose (ghost_transpose A d) d').rowInd.length := by
    rw [trl, tvl]
  have hT2rl : (ghost_transpose (ghost_transpose A d) d').rowInd.length
      = A.colPtr.getD A.n 0 := by
    rw [trl, sm, hcpeq]
  refine ⟨hcpeq, ?_, ?_⟩
  · have ha : (List.range A.n).flatMap
        (fun j => (A.rowInd.drop (A.colPtr.getD j 0)).take
          (A.colPtr.getD (j+1) 0 - A.colPtr.getD j 0)) = A.rowInd :=
      tiling A.rowInd A.colPtr A.n h2 h3 h4
    have ht2 : (List.range A.n).flatMap
        (fun j => ((ghost_transpose (ghost_transpose A d) d').rowInd.drop
          (A.colPtr.getD j 0)).take
          (A.colPtr.getD (j+1) 0 - A.colPtr.getD j 0))
        = (ghost_transpose (ghost_transpose A d) d').rowInd :=
      tiling _ A.colPtr A.n h2 h3 hT2rl.symm
    rw [← ht2, ← ha]
    apply flatMap_congr_mem
    intro j hj
    rw [List.mem_range] at hj
    dsimp only
    have hslice : ((ghost_transpose (ghost_transpose A d) d').rowInd.drop
        (A.colPtr.getD j 0)).take
        (A.colPtr.getD (j+1) 0 - A.colPtr.getD j 0)
        = (ghost_transpose (ghost_transpose A d) d').rowsOfCol j := by
      unfold CscV.rowsOfCol
      rw [hcpeq]
    rw [hslice, ← colEntries_map_fst _ hvT2 j,
      tchar j (by rw [sm]; exact hj), htc j hj, colEntries_map_fst A h5 j]
    rfl
  · have ha : (List.range A.n).flatMap
        (fun j => (A.vals.drop (A.colPtr.getD j 0)).take
          (A.colPtr.getD (j+1) 0 - A.colPtr.getD j 0)) = A.vals :=
      tiling A.vals A.colPtr A.n h2 h3 (by rw [h5]; exact h4)
    have ht2 : (List.range A.n).flatMap
        (fun j => ((ghost_transpose (ghost_transpose A d) d').vals.drop
          (A.colPtr.getD j 0)).take
          (A.colPtr.getD (j+1) 0 - A.colPtr.getD j 0))
        = (ghost_transpose (ghost_transpose A d) d').vals :=
      tiling _ A.colPtr A.n h2 h3 (by rw [hvT2]; exact hT2rl.symm)
    rw [← ht2, ← ha]
    apply flatMap_congr_mem
    intro j hj
    rw [List.mem_range] at hj
    dsimp only
    have hs2 : ((ghost_transpose (ghost_transpose A d) d').vals.drop
        (A.colPtr.getD j 0)).take
        (A.colPtr.getD (j+1) 0 - A.colPtr.getD j 0)
        = ((ghost_transpose (ghost_transpose A d) d').colEntries j).map
            Prod.snd := by
      rw [colEntries_map_snd _ hvT2 j, hcpeq]
    rw [hs2, tchar j (by rw [sm]; exact hj), htc j hj,
      colEntries_map_snd A h5 j]

/-- Witness for C7 on a concrete 2x3 integer matrix. -/
theorem transpose_round_trip_witness :
    CscV.WF (⟨2, 3, [0,1,3,4], [0,0,1,1], [(1:Int),2,3,4]⟩ : CscV Int) ∧
    ((ghost_transpose (ghost_transpose
        (⟨2, 3, [0,1,3,4], [0,0,1,1], [(1:Int),2,3,4]⟩ : CscV Int) 0)
        0).colPtr
      = (⟨2, 3, [0,1,3,4], [0,0,1,1], [(1:Int),2,3,4]⟩ : CscV Int).colPtr ∧
    (ghost_transpose (ghost_transpose
        (⟨2, 3, [0,1,3,4], [0,0,1,1], [(1:Int),2,3,4]⟩ : CscV Int) 0)
        0).rowInd
      = (⟨2, 3, [0,1,3,4], [0,0,1,1], [(1:Int),2,3,4]⟩ : CscV Int).rowInd ∧
    (ghost_transpose (ghost_transpose
        (⟨2, 3, [0,1,3,4], [0,0,1,1], [(1:Int),2,3,4]⟩ : CscV Int) 0)
        0).vals
      = (⟨2, 3, [0,1,3,4], [0,0,1,1], [(1:Int),2,3,4]⟩ : CscV Int).vals) :=
  ⟨by unfold CscV.WF; decide, transpose_round_trip _ (by unfold CscV.WF; decide) 0 0⟩
